import Mathlib

/-!
# zoo SWAR: a shallow embedding of `zoo/swar/SWAR.h` and `zoo/meta/BitmaskMaker.h`

A backing type `T` is represented by its bit width `bits` (8, 16, 32 or 64) and a
value of `T` by a natural number below `2 ^ bits`.  Every arithmetic operation of the
source is written out with the reduction modulo `2 ^ bits` that the unsigned type
performs.  For the 8 and 16 bit types C++ evaluates the operators in `int` and
truncates on conversion back to `T`; truncating after each operator gives the same
value, and that is what the definitions below do.

A left shift is `(x <<< s) % 2 ^ bits`, also when `s = bits`: the bits shifted past
the top are dropped.  Template parameters are ordinary arguments that come first, in
the order of the source.

The initializer of the `constexpr` variable `detail::popcountMask` is evaluated by the
compiler, for which a shift of a 64 bit word by 64 or more is not a constant
expression.  That evaluation is embedded with the check (`BitmaskMaker.repeat_constexpr`)
and has no value where the check fails; `popcount_logic`, which needs the mask, then
has no value either.
-/

namespace zoo.swar

/-! ## Machine arithmetic on `bits`-wide unsigned words -/

/-- Left shift in a `bits`-wide unsigned type. -/
def shl (bits x s : Nat) : Nat := (x <<< s) % 2 ^ bits

/-- Subtraction in a `bits`-wide unsigned type (wraps around). -/
def wsub (bits a b : Nat) : Nat := (a % 2 ^ bits + (2 ^ bits - b % 2 ^ bits)) % 2 ^ bits

/-- Addition in a `bits`-wide unsigned type (wraps around). -/
def wadd (bits a b : Nat) : Nat := (a + b) % 2 ^ bits

/-- Multiplication in a `bits`-wide unsigned type (wraps around). -/
def wmul (bits a b : Nat) : Nat := (a * b) % 2 ^ bits

/-- Bitwise complement `~x` in a `bits`-wide unsigned type. -/
def wnot (bits x : Nat) : Nat := 2 ^ bits - 1 - x % 2 ^ bits

/-! ## Compiler intrinsics -/

/-- Number of set bits among the bits `0 .. n-1` of `x`, counted one bit at a time. -/
def bitCount (n x : Nat) : Nat := (List.range n).countP (fun i => x.testBit i)

/-- The intrinsic `__builtin_popcountll`: the number of set bits of the argument
converted to a 64 bit word. -/
def builtin_popcountll (x : Nat) : Nat := bitCount 64 (x % 2 ^ 64)

/-- Number of consecutive clear bits of `x` found going down from bit `n - 1`. -/
def clzFrom (x : Nat) : Nat → Nat
  | 0 => 0
  | n + 1 => if x.testBit n then 0 else 1 + clzFrom x n

/-- The intrinsic `__builtin_clzll`: leading zeros of the argument converted to a 64
bit word.  The intrinsic has no defined result at `0`; the count gives `64` there. -/
def builtin_clzll (x : Nat) : Nat := clzFrom (x % 2 ^ 64) 64

/-- Number of consecutive clear bits of `x` found going up from bit `i`, looking at
no more than `fuel` bits. -/
def ctzFrom (x : Nat) : Nat → Nat → Nat
  | 0, _ => 0
  | fuel + 1, i => if x.testBit i then 0 else 1 + ctzFrom x fuel (i + 1)

/-- The intrinsic `__builtin_ctzll`: trailing zeros of the argument converted to a 64
bit word.  The intrinsic has no defined result at `0`; the count gives `64` there. -/
def builtin_ctzll (x : Nat) : Nat := ctzFrom (x % 2 ^ 64) 64 0

/-! ## `BitmaskMaker` and `makeBitmask` (SWAR.h lines 16-34) -/

/-- The member `BitmaskMaker<T, Progression, Remaining>::repeat(v)`. -/
def BitmaskMaker.repeat (bits Progression : Nat) : Nat → Nat → Nat
  | 0, v => v
  | Remaining + 1, v =>
    BitmaskMaker.repeat bits Progression Remaining ((v ||| (v <<< Progression)) % 2 ^ bits)

/-- The function `makeBitmask<size, T>(v)`. -/
def makeBitmask (size bits v : Nat) : Nat :=
  BitmaskMaker.repeat bits size (bits / size) v

/-- The member `BitmaskMaker<uint64_t, Progression, Remaining>::repeat(v)` evaluated in
a constant expression: the step `v | (v << Progression)` is a constant expression only
when `Progression` is below 64, the width of `v`; otherwise the shift is undefined, the
evaluation has no result (`none`) and the `constexpr` variable being initialised does
not build. -/
def BitmaskMaker.repeat_constexpr (Progression : Nat) : Nat → Nat → Option Nat
  | 0, v => some v
  | Remaining + 1, v =>
    if Progression < 64 then
      BitmaskMaker.repeat_constexpr Progression Remaining ((v ||| (v <<< Progression)) % 2 ^ 64)
    else none

/-- The function `makeBitmask<size, uint64_t>(v)` evaluated in a constant expression. -/
def makeBitmask_constexpr (size v : Nat) : Option Nat :=
  BitmaskMaker.repeat_constexpr size (64 / size) v

/-- The constant `detail::popcountMask<level>`, a `constexpr` variable: `none` when its
initializer is not a constant expression. -/
def detail.popcountMask (level : Nat) : Option Nat :=
  match BitmaskMaker.repeat_constexpr 1 ((1 <<< level) - 1) 1 with
  | none => none
  | some pattern => makeBitmask_constexpr (1 <<< (level + 1)) pattern

/-! ## Population count (SWAR.h lines 55-107) -/

/-- The function `popcount_logic<Level>(arg)`, with its specialisation at level 0;
`none` when `detail::popcountMask<Level>` or the level below does not build. -/
def popcount_logic : Nat → Nat → Option Nat
  | 0, v =>
    match detail.popcountMask 0 with
    | none => none
    | some mask => some (wsub 64 v ((v >>> 1) &&& mask))
  | Level + 1, arg =>
    match popcount_logic Level arg, detail.popcountMask (Level + 1) with
    | some v, some mask =>
      let shifter := 1 <<< (Level + 1)
      some (wadd 64 ((v >>> shifter) &&& mask) (v &&& mask))
    | _, _ => none

/-- The loop of `popcount_builtin`: `w` is `8*sizeof(UI)`, `n` the loop counter (a
64 bit unsigned), `rv` the accumulator.  Each unit of `fuel` pays for one evaluation
of the loop condition; `none` means the fuel ran out before the loop ended. -/
def popcount_builtin_loop (w v : Nat) : Nat → Nat → Nat → Option Nat
  | 0, _, _ => none
  | fuel + 1, n, rv =>
    if n = 0 then some rv
    else
      let n1 := wsub 64 n w
      let tmp := (v >>> n1) % 2 ^ w
      let tmp1 := builtin_popcountll tmp % 2 ^ w
      popcount_builtin_loop w v fuel n1 (rv ||| shl 64 tmp1 n1)

/-- The function `popcount_builtin<Level>(v)`; `UI` is the unsigned type of
`1 << (Level + 3)` bits. -/
def popcount_builtin (Level v : Nat) : Option Nat :=
  popcount_builtin_loop (1 <<< (Level + 3)) v 65 64 0

/-- The function `popcount<Level>(a)`: `detail::Selector_impl<2 < Level>` picks the
path. -/
def popcount (Level a : Nat) : Option Nat :=
  if 2 < Level then popcount_builtin (Level - 2) a else popcount_logic Level a

/-! ## `msb_index` and the lane-packed word `SWAR<NBits, T>` (SWAR.h lines 110-151) -/

/-- The function `msb_index<T>(v)`: `8*sizeof(T) - 1 - __builtin_clzll(v)` is
evaluated in the 64 bit `size_t` and converted to the unsigned `T`. -/
def msb_index (bits v : Nat) : Nat := wsub 64 (wsub 64 bits 1) (builtin_clzll v) % 2 ^ bits

/-- The member `SWAR<NBits, T>::at(position)`. -/
def SWAR.at (NBits bits m_v position : Nat) : Nat :=
  let filter := wsub bits (shl bits 1 NBits) 1
  filter &&& (m_v >>> (NBits * position))

/-- The member `SWAR<NBits, T>::clear(position)`. -/
def SWAR.clear (NBits bits m_v position : Nat) : Nat :=
  let filter := wsub bits (shl bits 1 NBits) 1
  let invertedMask := shl bits filter (NBits * position)
  let mask := wnot bits invertedMask
  m_v &&& mask

/-- The member `SWAR<NBits, T>::top()`. -/
def SWAR.top (NBits bits m_v : Nat) : Nat := msb_index bits m_v / NBits

/-- The member `SWAR<NBits, T>::lsbIndex()`. -/
def SWAR.lsbIndex (NBits m_v : Nat) : Nat := builtin_ctzll m_v / NBits

/-- The member `SWAR<NBits, T>::set(index, bit)`. -/
def SWAR.set (NBits bits m_v index bit : Nat) : Nat :=
  m_v ||| shl bits 1 (index * NBits + bit)

/-! ## `broadcast`, `BooleanSWAR` and the comparisons (SWAR.h lines 188-238)

The members `BooleanSWAR::clear` and `BooleanSWAR::operator not` have no embedding: each
returns a value of type `T` where a `BooleanSWAR` is required, and the only constructor
from `T` is `explicit`, so neither member can be instantiated.  In `operator not` the
operand `*this` of `MSBs ^ *this` moreover reaches the built-in `^` through
`operator bool`, the conversion to `T` being `explicit`. -/

/-- The function `broadcast<NBits, T>(v)`. -/
def broadcast (NBits bits v : Nat) : Nat :=
  let Ones := makeBitmask NBits bits 1
  wmul bits v Ones

/-- The constant `BooleanSWAR<NBits, T>::MSBs`. -/
def BooleanSWAR.MSBs (NBits bits : Nat) : Nat :=
  broadcast NBits bits (shl bits 1 (NBits - 1))

/-- The member `BooleanSWAR<NBits, T>::best()`. -/
def BooleanSWAR.best (NBits bits m_v : Nat) : Nat := SWAR.top NBits bits m_v

/-- The function `greaterEqual_MSB_off<NBits, T>(left, right)`. -/
def greaterEqual_MSB_off (NBits bits left right : Nat) : Nat :=
  let MSOnes := BooleanSWAR.MSBs NBits bits
  wsub bits (left ||| MSOnes) right &&& MSOnes

/-- The function `greaterEqual<N, NBits, T>(v)`. -/
def greaterEqual (N NBits bits v : Nat) : Nat :=
  let msbPos := NBits - 1
  let msb := shl bits 1 msbPos
  let msbMask := makeBitmask NBits bits msb
  let subtraend := makeBitmask NBits bits (N % 2 ^ bits)
  let adjusted := v ||| msbMask
  let rv := wsub bits adjusted subtraend
  rv &&& msbMask

/-! ## Bit-isolation primitives (SWAR.h lines 163-186) -/

/-- The function `clearLSB<T>(v)`. -/
def clearLSB (bits v : Nat) : Nat := v &&& wsub bits v 1

/-- The function `isolateLSB<T>(v)`. -/
def isolateLSB (bits v : Nat) : Nat := v &&& wnot bits (clearLSB bits v)

/-- The function `maskLowBits<NBits, T>()`. -/
def maskLowBits (NBits bits : Nat) : Nat :=
  shl bits 1 (NBits - 1) ||| wsub bits (shl bits 1 (NBits - 1)) 1

/-- Modelled from the spec: `metaLogFloor` is declared in `zoo/swar/metaLog.h`, which is
not among the sources; the spec describes it as the base-2 logarithm, rounded down. -/
def metaLogFloor (arg : Nat) : Nat := Nat.log2 arg

/-- The function `clearLSBits<NBits, T>(v)`; `maskLowBits<NBits>()` is called with its
default type, `uint64_t`. -/
def clearLSBits (NBits bits v : Nat) : Nat :=
  v &&& wnot 64 (shl 64 (maskLowBits NBits 64) (metaLogFloor (isolateLSB bits v)))

/-- The function `isolateLSBits<NBits, T>(v)`; `maskLowBits<NBits>()` is called with its
default type, `uint64_t`. -/
def isolateLSBits (NBits bits v : Nat) : Nat :=
  v &&& shl 64 (maskLowBits NBits 64) (metaLogFloor (isolateLSB bits v))

/-! ## Lane view of a word, used to state and prove the properties -/

/-- The word whose `k` lanes of `N` bits hold `f 0`, `f 1`, .. from lane 0 upwards. -/
def pack (N : Nat) : Nat → (Nat → Nat) → Nat
  | 0, _ => 0
  | k + 1, f => f 0 + 2 ^ N * pack N k (fun j => f (j + 1))

/-- The value of the `N` bit lane number `j` of `x`. -/
def lane (N x j : Nat) : Nat := (x >>> (N * j)) % 2 ^ N

/-- The word that holds, in each of its `k` lanes of `c` bits, the number of set bits
of the same lane of `v`. -/
def laneCounts (c k v : Nat) : Nat := pack c k (fun i => bitCount c (v >>> (c * i)))

end zoo.swar

namespace zoo.meta

/-! ## `zoo/meta/BitmaskMaker.h` -/

/-- The constant `detail::BitmaskMaker_impl<T, Current, CurrentSize, flag>::value`.  Each
unit of `fuel` pays for one instantiation of the template; `none` means the fuel ran
out before the recursion reached the specialisation for `false`. -/
def detail.BitmaskMaker_impl (bits : Nat) : Nat → Nat → Nat → Bool → Option Nat
  | 0, _, _, _ => none
  | _ + 1, Current, _, false => some Current
  | fuel + 1, Current, CurrentSize, true =>
    detail.BitmaskMaker_impl bits fuel ((Current ||| (Current <<< CurrentSize)) % 2 ^ bits)
      (CurrentSize * 2) (decide (CurrentSize * 2 < bits))

/-- The constant `BitmaskMaker<T, Current, CurrentSize>::value`. -/
def BitmaskMaker (bits Current CurrentSize : Nat) : Option Nat :=
  detail.BitmaskMaker_impl bits (bits + 1) Current CurrentSize (decide (CurrentSize * 2 ≤ bits))

/-- The constant `BitmaskMakerClearTop<T, PatternBitCount>::TopBlit`, with the members
it is computed from; each of them has type `T`. -/
def BitmaskMakerClearTop.TopBlit (bits PatternBitCount : Nat) : Nat :=
  let BitCount := bits % 2 ^ bits
  let LeastBitsKeepCount := zoo.swar.wsub bits BitCount (BitCount % PatternBitCount)
  let BitMod := BitCount % PatternBitCount
  if BitMod = 0 then zoo.swar.wnot bits 0
  else zoo.swar.wsub bits (zoo.swar.shl bits 1 LeastBitsKeepCount) 1

end zoo.meta

namespace zoo.swar

/-! ## Machine arithmetic lemmas -/

theorem shl_one_of_lt {bits s : Nat} (h : s < bits) : shl bits 1 s = 2 ^ s := by
  unfold shl
  rw [Nat.shiftLeft_eq, Nat.one_mul]
  exact Nat.mod_eq_of_lt (Nat.pow_lt_pow_right (by decide) h)

theorem wsub_of_le {bits a b : Nat} (ha : a < 2 ^ bits) (hb : b ≤ a) :
    wsub bits a b = a - b := by
  unfold wsub
  have hb2 : b < 2 ^ bits := lt_of_le_of_lt hb ha
  rw [Nat.mod_eq_of_lt ha, Nat.mod_eq_of_lt hb2]
  have e : a + (2 ^ bits - b) = (a - b) + 2 ^ bits := by omega
  rw [e, Nat.add_mod_right]
  exact Nat.mod_eq_of_lt (by omega)

theorem filter_eq {NBits bits : Nat} (h : NBits ≤ bits) :
    wsub bits (shl bits 1 NBits) 1 = 2 ^ NBits - 1 := by
  have hpos : 0 < 2 ^ bits := Nat.two_pow_pos _
  rcases Nat.lt_or_ge NBits bits with hlt | hge
  · rw [shl_one_of_lt hlt]
    have h1 : 2 ^ NBits < 2 ^ bits := Nat.pow_lt_pow_right (by decide) hlt
    have h2 : 0 < 2 ^ NBits := Nat.two_pow_pos _
    exact wsub_of_le h1 h2
  · have e : NBits = bits := le_antisymm h hge
    subst e
    unfold wsub shl
    rw [Nat.shiftLeft_eq, Nat.one_mul, Nat.mod_self, Nat.zero_mod, Nat.zero_add]
    rcases Nat.lt_or_ge 1 (2 ^ NBits) with h1 | h1
    · rw [Nat.mod_eq_of_lt h1]
      exact Nat.mod_eq_of_lt (by omega)
    · have e1 : 2 ^ NBits = 1 := by omega
      rw [e1]

/-! ## Lanes -/

theorem testBit_lane (N x j b : Nat) :
    (lane N x j).testBit b = (decide (b < N) && x.testBit (N * j + b)) := by
  unfold lane
  rw [Nat.testBit_mod_two_pow, Nat.testBit_shiftRight]

theorem lane_lt (N x j : Nat) : lane N x j < 2 ^ N :=
  Nat.mod_lt _ (Nat.two_pow_pos _)

theorem lane_succ (N x j : Nat) : lane N x (j + 1) = lane N (x >>> N) j := by
  unfold lane
  rw [Nat.mul_succ, Nat.add_comm (N * j) N, Nat.shiftRight_add]

theorem lane_zero (N x : Nat) : lane N x 0 = x % 2 ^ N := by
  unfold lane
  rw [Nat.mul_zero, Nat.shiftRight_zero]

theorem at_eq_lane {NBits bits : Nat} (h : NBits ≤ bits) (m_v position : Nat) :
    SWAR.at NBits bits m_v position = lane NBits m_v position := by
  unfold SWAR.at lane
  simp only []
  rw [filter_eq h, Nat.and_comm, Nat.and_pow_two_sub_one_eq_mod]

theorem pack_congr (N : Nat) : ∀ (k : Nat) (f g : Nat → Nat),
    (∀ j, j < k → f j = g j) → pack N k f = pack N k g
  | 0, _, _, _ => rfl
  | k + 1, f, g, h => by
    simp only [pack]
    rw [h 0 (Nat.succ_pos k),
      pack_congr N k (fun j => f (j + 1)) (fun j => g (j + 1))
        (fun j hj => h (j + 1) (Nat.succ_lt_succ hj))]

theorem pack_lt (N : Nat) : ∀ (k : Nat) (f : Nat → Nat),
    (∀ j, j < k → f j < 2 ^ N) → pack N k f < 2 ^ (N * k)
  | 0, _, _ => by simp [pack]
  | k + 1, f, h => by
    simp only [pack]
    have h0 := h 0 (Nat.succ_pos k)
    have ih := pack_lt N k (fun j => f (j + 1)) (fun j hj => h (j + 1) (Nat.succ_lt_succ hj))
    have e : 2 ^ (N * (k + 1)) = 2 ^ N * 2 ^ (N * k) := by
      rw [Nat.mul_succ, Nat.add_comm, Nat.pow_add]
    rw [e]
    calc f 0 + 2 ^ N * pack N k (fun j => f (j + 1))
        < 2 ^ N + 2 ^ N * pack N k (fun j => f (j + 1)) := by omega
      _ = 2 ^ N * (pack N k (fun j => f (j + 1)) + 1) := by ring
      _ ≤ 2 ^ N * 2 ^ (N * k) := Nat.mul_le_mul_left _ ih

theorem pack_lane (N : Nat) : ∀ (k x : Nat), x < 2 ^ (N * k) → pack N k (lane N x) = x
  | 0, x, h => by
    simp at h
    simp [pack, h]
  | k + 1, x, h => by
    simp only [pack]
    have hx : x >>> N < 2 ^ (N * k) := by
      rw [Nat.shiftRight_eq_div_pow]
      apply Nat.div_lt_of_lt_mul
      rw [← Nat.pow_add]
      rw [Nat.mul_succ, Nat.add_comm] at h
      exact h
    have e : (fun j => lane N x (j + 1)) = lane N (x >>> N) := by
      funext j
      exact lane_succ N x j
    rw [e, pack_lane N k _ hx, lane_zero, Nat.shiftRight_eq_div_pow]
    exact Nat.mod_add_div x (2 ^ N)

theorem lane_pack (N : Nat) : ∀ (k : Nat) (f : Nat → Nat) (i : Nat),
    (∀ j, j < k → f j < 2 ^ N) → i < k → lane N (pack N k f) i = f i
  | 0, _, _, _, hi => absurd hi (Nat.not_lt_zero _)
  | k + 1, f, 0, h, _ => by
    rw [lane_zero]
    simp only [pack]
    rw [Nat.add_mul_mod_self_left]
    exact Nat.mod_eq_of_lt (h 0 (Nat.succ_pos k))
  | k + 1, f, i + 1, h, hi => by
    rw [lane_succ]
    simp only [pack]
    have e : (f 0 + 2 ^ N * pack N k (fun j => f (j + 1))) >>> N
        = pack N k (fun j => f (j + 1)) := by
      rw [Nat.shiftRight_eq_div_pow, Nat.add_mul_div_left _ _ (Nat.two_pow_pos _),
        Nat.div_eq_of_lt (h 0 (Nat.succ_pos k)), Nat.zero_add]
    rw [e]
    exact lane_pack N k (fun j => f (j + 1)) i
      (fun j hj => h (j + 1) (Nat.succ_lt_succ hj)) (Nat.lt_of_succ_lt_succ hi)

theorem pack_add (N : Nat) : ∀ (k : Nat) (f g : Nat → Nat),
    pack N k f + pack N k g = pack N k (fun j => f j + g j)
  | 0, _, _ => rfl
  | k + 1, f, g => by
    simp only [pack]
    rw [← pack_add N k (fun j => f (j + 1)) (fun j => g (j + 1))]
    ring

theorem pack_sub (N : Nat) : ∀ (k : Nat) (f g : Nat → Nat),
    (∀ j, j < k → g j ≤ f j) → pack N k f - pack N k g = pack N k (fun j => f j - g j)
  | 0, _, _, _ => rfl
  | k + 1, f, g, h => by
    have h0 := h 0 (Nat.succ_pos k)
    have hle : ∀ j, j < k + 1 → (fun j => f j - g j) j + g j = f j := fun j hj => by
      have := h j hj
      simp only []
      omega
    have e := pack_add N (k + 1) (fun j => f j - g j) g
    rw [pack_congr N (k + 1) _ f hle] at e
    omega

theorem lane_and (N a b j : Nat) : lane N (a &&& b) j = lane N a j &&& lane N b j := by
  apply Nat.eq_of_testBit_eq
  intro i
  simp only [testBit_lane, Nat.testBit_and]
  cases decide (i < N) <;> simp

theorem lane_low (c y j : Nat) : lane (2 * c) y j % 2 ^ c = lane c y (2 * j) := by
  apply Nat.eq_of_testBit_eq
  intro i
  have e : 2 * c * j = c * (2 * j) := by ring
  simp only [testBit_lane, Nat.testBit_mod_two_pow, e]
  by_cases h : i < c
  · have h2 : i < 2 * c := by omega
    simp [h, h2]
  · simp [h]

theorem lane_high (c y j : Nat) : lane (2 * c) y j >>> c = lane c y (2 * j + 1) := by
  apply Nat.eq_of_testBit_eq
  intro i
  have e : c * (2 * j + 1) + i = 2 * c * j + (c + i) := by ring
  simp only [testBit_lane, Nat.testBit_shiftRight, e]
  by_cases h : i < c
  · have h2 : c + i < 2 * c := by omega
    simp [h, h2]
  · have h2 : ¬ (c + i < 2 * c) := by omega
    simp [h, h2]

theorem lane_split (c y j : Nat) :
    lane (2 * c) y j = lane c y (2 * j) + 2 ^ c * lane c y (2 * j + 1) := by
  rw [← lane_low, ← lane_high, Nat.shiftRight_eq_div_pow]
  exact (Nat.mod_add_div _ _).symm

/-- The mask with the low `c` bits set in each of `k` lanes of `2 * c` bits. -/
theorem lane_halfMask {c k j : Nat} (hj : j < k) :
    lane (2 * c) (pack (2 * c) k (fun _ => 2 ^ c - 1)) j = 2 ^ c - 1 := by
  apply lane_pack _ _ _ _ _ hj
  intro _ _
  have h1 : 2 ^ c ≤ 2 ^ (2 * c) := Nat.pow_le_pow_right (by decide) (by omega)
  have h2 := Nat.two_pow_pos c
  omega

theorem halfMask_lt (c k : Nat) : pack (2 * c) k (fun _ => 2 ^ c - 1) < 2 ^ (2 * c * k) := by
  apply pack_lt
  intro _ _
  have h1 : 2 ^ c ≤ 2 ^ (2 * c) := Nat.pow_le_pow_right (by decide) (by omega)
  have h2 := Nat.two_pow_pos c
  omega

theorem and_halfMask (c k y : Nat) :
    y &&& pack (2 * c) k (fun _ => 2 ^ c - 1) = pack (2 * c) k (fun j => lane c y (2 * j)) := by
  have hlt : y &&& pack (2 * c) k (fun _ => 2 ^ c - 1) < 2 ^ (2 * c * k) :=
    lt_of_le_of_lt Nat.and_le_right (halfMask_lt c k)
  rw [← pack_lane (2 * c) k _ hlt]
  apply pack_congr
  intro j hj
  rw [lane_and, lane_halfMask hj, Nat.and_pow_two_sub_one_eq_mod, lane_low]

theorem shift_and_halfMask (c k y : Nat) :
    (y >>> c) &&& pack (2 * c) k (fun _ => 2 ^ c - 1)
      = pack (2 * c) k (fun j => lane c y (2 * j + 1)) := by
  rw [and_halfMask]
  apply pack_congr
  intro j _
  apply Nat.eq_of_testBit_eq
  intro i
  have e : c * (2 * j + 1) + i = c + (c * (2 * j) + i) := by ring
  simp only [testBit_lane, Nat.testBit_shiftRight, e]

/-! ## Counting bits -/

theorem bitCount_succ (n x : Nat) :
    bitCount (n + 1) x = bitCount n x + (if x.testBit n then 1 else 0) := by
  unfold bitCount
  rw [List.range_succ, List.countP_append]
  simp [List.countP_cons]

theorem bitCount_le (x : Nat) : ∀ n, bitCount n x ≤ n
  | 0 => by simp [bitCount]
  | n + 1 => by
    rw [bitCount_succ]
    have := bitCount_le x n
    split <;> omega

theorem bitCount_add (a x : Nat) : ∀ b, bitCount (a + b) x = bitCount a x + bitCount b (x >>> a)
  | 0 => by simp [bitCount]
  | b + 1 => by
    rw [← Nat.add_assoc, bitCount_succ, bitCount_succ, bitCount_add a x b,
      Nat.testBit_shiftRight, Nat.add_assoc]

theorem bitCount_congr (n x y : Nat) (h : ∀ i, i < n → x.testBit i = y.testBit i) :
    bitCount n x = bitCount n y := by
  unfold bitCount
  apply List.countP_congr
  intro i hi
  rw [h i (List.mem_range.mp hi)]

theorem bitCount_mod {n m : Nat} (h : n ≤ m) (x : Nat) : bitCount n (x % 2 ^ m) = bitCount n x := by
  apply bitCount_congr
  intro i hi
  have : i < m := by omega
  simp [Nat.testBit_mod_two_pow, this]

theorem bitCount_of_lt {n x : Nat} (h : x < 2 ^ n) (m : Nat) :
    bitCount (n + m) x = bitCount n x := by
  rw [bitCount_add]
  have e : x >>> n = 0 := by
    rw [Nat.shiftRight_eq_div_pow]
    exact Nat.div_eq_of_lt h
  rw [e]
  have z : bitCount m 0 = 0 := by
    have := bitCount_congr m 0 0 (fun _ _ => rfl)
    unfold bitCount
    simp
  omega

theorem bitCount_one (x : Nat) : bitCount 1 x = x % 2 := by
  rw [bitCount_succ]
  simp only [bitCount, List.range_zero, List.countP_nil, Nat.zero_add, Nat.testBit_zero]
  rcases Nat.mod_two_eq_zero_or_one x with h | h <;> simp [h]

theorem lt_two_pow_self_of_le {a c : Nat} (h : a ≤ c) : a < 2 ^ c :=
  lt_of_le_of_lt h (Nat.lt_two_pow c)

/-! ## The pairwise-sum reduction -/

theorem laneCounts_lt (c k v : Nat) : laneCounts c k v < 2 ^ (c * k) :=
  pack_lt c k _ (fun _ _ => lt_two_pow_self_of_le (bitCount_le _ _))

theorem lane_laneCounts {c k i : Nat} (v : Nat) (hi : i < k) :
    lane c (laneCounts c k v) i = bitCount c (v >>> (c * i)) :=
  lane_pack c k _ i (fun _ _ => lt_two_pow_self_of_le (bitCount_le _ _)) hi

theorem bitCount_pair (c v j : Nat) :
    bitCount c (v >>> (c * (2 * j))) + bitCount c (v >>> (c * (2 * j + 1)))
      = bitCount (2 * c) (v >>> (2 * c * j)) := by
  have e1 : c * (2 * j) = 2 * c * j := by ring
  have e2 : c * (2 * j + 1) = 2 * c * j + c := by ring
  rw [Nat.two_mul c, bitCount_add, e1, e2, Nat.shiftRight_add, ← Nat.two_mul]

/-- One level of the reduction: adjacent lanes of `c` bits are added into lanes of
`2 * c` bits. -/
theorem add_step (c k v : Nat) (hk : 2 * c * k ≤ 64) :
    wadd 64 ((laneCounts c (2 * k) v >>> c) &&& pack (2 * c) k (fun _ => 2 ^ c - 1))
        (laneCounts c (2 * k) v &&& pack (2 * c) k (fun _ => 2 ^ c - 1))
      = laneCounts (2 * c) k v := by
  rw [shift_and_halfMask, and_halfMask, wadd, pack_add]
  have e : pack (2 * c) k (fun j => lane c (laneCounts c (2 * k) v) (2 * j + 1)
        + lane c (laneCounts c (2 * k) v) (2 * j)) = laneCounts (2 * c) k v := by
    unfold laneCounts
    apply pack_congr
    intro j hj
    have h1 : 2 * j + 1 < 2 * k := by omega
    have h0 : 2 * j < 2 * k := by omega
    have a1 : lane c (laneCounts c (2 * k) v) (2 * j + 1) = _ := lane_laneCounts v h1
    have a0 : lane c (laneCounts c (2 * k) v) (2 * j) = _ := lane_laneCounts v h0
    unfold laneCounts at a0 a1
    simp only [a0, a1]
    rw [Nat.add_comm, bitCount_pair]
  rw [e]
  apply Nat.mod_eq_of_lt
  exact lt_of_lt_of_le (laneCounts_lt _ _ _) (Nat.pow_le_pow_right (by decide) hk)

theorem laneCounts_one {k v : Nat} (hv : v < 2 ^ k) : laneCounts 1 k v = v := by
  have h : v < 2 ^ (1 * k) := by rw [Nat.one_mul]; exact hv
  have e := pack_lane 1 k v h
  unfold laneCounts
  rw [← e]
  apply pack_congr
  intro j _
  rw [e, bitCount_one]
  rfl

/-- Level 0 of the reduction: subtracting the high bit of each pair from the pair
leaves the number of set bits of the pair. -/
theorem sub_step (k v : Nat) (hv : v < 2 ^ (2 * k)) (hk : 2 * k ≤ 64) :
    wsub 64 v ((v >>> 1) &&& pack 2 k (fun _ => 1)) = laneCounts 2 k v := by
  have hm := shift_and_halfMask 1 k v
  simp only [Nat.mul_one, Nat.pow_one, Nat.add_one_sub_one] at hm
  rw [hm]
  have hv64 : v < 2 ^ 64 := lt_of_lt_of_le hv (Nat.pow_le_pow_right (by decide) hk)
  have hsplit : v = laneCounts 2 k v + pack 2 k (fun j => lane 1 v (2 * j + 1)) := by
    have h2 : v < 2 ^ (2 * k) := hv
    have e := pack_lane 2 k v h2
    unfold laneCounts
    rw [pack_add]
    conv_lhs => rw [← e]
    apply pack_congr
    intro j _
    have s := lane_split 1 v j
    simp only [Nat.mul_one, Nat.pow_one] at s
    have b := bitCount_pair 1 v j
    simp only [Nat.mul_one, Nat.one_mul] at b
    have l0 : lane 1 v (2 * j) = bitCount 1 (v >>> (2 * j)) := by
      rw [bitCount_one]; unfold lane; simp
    have l1 : lane 1 v (2 * j + 1) = bitCount 1 (v >>> (2 * j + 1)) := by
      rw [bitCount_one]; unfold lane; simp
    show lane 2 v j = bitCount 2 (v >>> (2 * j)) + lane 1 v (2 * j + 1)
    rw [s, ← b, ← l0, ← l1]
    ring
  rw [wsub_of_le hv64 (by omega)]
  omega

/-! ## `popcount_logic` -/

theorem repeat_constexpr_eq {Progression : Nat} (h : Progression < 64) :
    ∀ (Remaining v : Nat),
      BitmaskMaker.repeat_constexpr Progression Remaining v
        = some (BitmaskMaker.repeat 64 Progression Remaining v)
  | 0, _ => rfl
  | Remaining + 1, v => by
    rw [BitmaskMaker.repeat_constexpr, if_pos h, BitmaskMaker.repeat]
    exact repeat_constexpr_eq h Remaining _

/-- A pattern as wide as the word makes `repeat` shift by 64: no constant expression. -/
theorem repeat_constexpr_full_width (Remaining v : Nat) :
    BitmaskMaker.repeat_constexpr 64 (Remaining + 1) v = none := by
  rw [BitmaskMaker.repeat_constexpr, if_neg (by decide)]

theorem popcountMask_eq : ∀ L, L ≤ 4 →
    detail.popcountMask L = some (pack (2 * 2 ^ L) (32 / 2 ^ L) (fun _ => 2 ^ 2 ^ L - 1)) := by
  intro L hL
  interval_cases L <;> decide

theorem popcountMask_top : detail.popcountMask 5 = none := by
  decide

theorem popcount_logic_succ {L arg v mask : Nat} (hv : popcount_logic L arg = some v)
    (hm : detail.popcountMask (L + 1) = some mask) :
    popcount_logic (L + 1) arg
      = some (wadd 64 ((v >>> (1 <<< (L + 1))) &&& mask) (v &&& mask)) := by
  rw [popcount_logic, hv, hm]

/-- At every level up to 4 the pure-logic reduction holds, in each lane of
`2 ^ (L + 1)` bits, the number of set bits of that lane of the argument. -/
theorem popcount_logic_eq_laneCounts (v : Nat) (hv : v < 2 ^ 64) : ∀ L, L ≤ 4 →
    popcount_logic L v = some (laneCounts (2 * 2 ^ L) (32 / 2 ^ L) v)
  | 0, _ => by
    have h := sub_step 32 v hv (by decide)
    rw [popcount_logic, popcountMask_eq 0 (by decide)]
    exact congrArg some h
  | 1, _ => by
    rw [popcount_logic_succ (popcount_logic_eq_laneCounts v hv 0 (by decide))
      (popcountMask_eq 1 (by decide))]
    exact congrArg some (add_step 2 16 v (by decide))
  | 2, _ => by
    rw [popcount_logic_succ (popcount_logic_eq_laneCounts v hv 1 (by decide))
      (popcountMask_eq 2 (by decide))]
    exact congrArg some (add_step 4 8 v (by decide))
  | 3, _ => by
    rw [popcount_logic_succ (popcount_logic_eq_laneCounts v hv 2 (by decide))
      (popcountMask_eq 3 (by decide))]
    exact congrArg some (add_step 8 4 v (by decide))
  | 4, _ => by
    rw [popcount_logic_succ (popcount_logic_eq_laneCounts v hv 3 (by decide))
      (popcountMask_eq 4 (by decide))]
    exact congrArg some (add_step 16 2 v (by decide))
  | _ + 5, h => absurd h (by omega)

/-- At level 5 the mask does not build, so `popcount_logic<5>` has no value. -/
theorem popcount_logic_top_none (arg : Nat) : popcount_logic 5 arg = none := by
  rw [popcount_logic, popcountMask_top]
  cases popcount_logic 4 arg <;> rfl

theorem laneCounts_whole (c v : Nat) : laneCounts c 1 v = bitCount c v := by
  simp [laneCounts, pack]

/-- C2 (the code at the failing input): `detail::popcountMask<5>` is `makeBitmask<64>`
on a 64 bit word, whose one step shifts the word by 64, so it has no value, and
`popcount_logic<5>` has none for any argument; level 4 still builds, and holds the
counts of the two halves (`0x18` and `0x6` for `0xF0F0FFFF00013320`).  The sibling
generator `meta::BitmaskMaker<uint64_t, v, 64>` does build: it stops without a shift. -/
theorem popcount_logic_top_has_no_value :
    makeBitmask_constexpr 64 0xFFFFFFFF = none ∧ detail.popcountMask 5 = none ∧
      (∀ v, popcount_logic 5 v = none) ∧
      popcount_logic 4 0xF0F0FFFF00013320 = some 0x1800000006 ∧
      meta.BitmaskMaker 64 0xFFFFFFFF 64 = some 0xFFFFFFFF := by
  refine ⟨by decide, popcountMask_top, popcount_logic_top_none, ?_, by decide⟩
  rw [popcount_logic_eq_laneCounts 0xF0F0FFFF00013320 (by decide) 4 (by decide)]
  decide

/-! ## `popcount_builtin` -/

theorem pack_snoc (N : Nat) : ∀ (k : Nat) (f : Nat → Nat),
    pack N (k + 1) f = pack N k f + 2 ^ (N * k) * f k
  | 0, f => by simp [pack]
  | k + 1, f => by
    have ih := pack_snoc N k (fun j => f (j + 1))
    have e : 2 ^ (N * (k + 1)) = 2 ^ N * 2 ^ (N * k) := by
      rw [Nat.mul_succ, Nat.add_comm, Nat.pow_add]
    rw [pack, ih, e]
    simp only [pack]
    ring

theorem laneCounts_succ (w m v : Nat) :
    laneCounts w (m + 1) v = laneCounts w m v + 2 ^ (w * m) * bitCount w (v >>> (w * m)) :=
  pack_snoc w m _

theorem builtin_popcountll_chunk {w : Nat} (hw : w ≤ 64) (x : Nat) :
    builtin_popcountll (x % 2 ^ w) % 2 ^ w = bitCount w x := by
  have hlt : x % 2 ^ w < 2 ^ w := Nat.mod_lt _ (Nat.two_pow_pos _)
  have h64 : x % 2 ^ w < 2 ^ 64 := lt_of_lt_of_le hlt (Nat.pow_le_pow_right (by decide) hw)
  have e : w + (64 - w) = 64 := by omega
  unfold builtin_popcountll
  rw [Nat.mod_eq_of_lt h64, ← e, bitCount_of_lt hlt, bitCount_mod (le_refl w)]
  exact Nat.mod_eq_of_lt (lt_two_pow_self_of_le (bitCount_le _ _))

theorem or_shifted {s w t : Nat} (R : Nat) (ht : t < 2 ^ w) :
    2 ^ (s + w) * R ||| t * 2 ^ s = 2 ^ s * (t + 2 ^ w * R) := by
  have e1 : 2 ^ (s + w) * R = (2 ^ w * R) <<< s := by
    rw [Nat.shiftLeft_eq, Nat.pow_add]; ring
  have e2 : t * 2 ^ s = t <<< s := by rw [Nat.shiftLeft_eq]
  have e3 : 2 ^ s * (t + 2 ^ w * R) = (2 ^ w * R ||| t) <<< s := by
    rw [Nat.shiftLeft_eq, ← Nat.mul_add_lt_is_or ht]; ring
  rw [e1, e2, e3]
  apply Nat.eq_of_testBit_eq
  intro i
  simp only [Nat.testBit_or, Nat.testBit_shiftLeft]
  cases decide (i ≥ s) <;> simp

/-- The loop started at `n = w * m` with the lanes above `m` already in `rv` ends,
given `m + 1` units of fuel, with the counts of the `m` low lanes added. -/
theorem popcount_builtin_loop_spec (w v : Nat) (hw : 0 < w) (hw64 : w ≤ 64) :
    ∀ (m fuel R : Nat), m < fuel → w * m ≤ 64 →
      popcount_builtin_loop w v fuel (w * m) (2 ^ (w * m) * R)
        = some (laneCounts w m v + 2 ^ (w * m) * R)
  | _, 0, _, h, _ => absurd h (Nat.not_lt_zero _)
  | 0, fuel + 1, R, _, _ => by
    simp [popcount_builtin_loop, laneCounts, pack]
  | m + 1, fuel + 1, R, h, hm => by
    have hn : w * (m + 1) ≠ 0 := Nat.mul_ne_zero (by omega) (by omega)
    have hlt : w * (m + 1) < 2 ^ 64 := lt_of_le_of_lt hm (by decide)
    have hsub : wsub 64 (w * (m + 1)) w = w * m := by
      rw [wsub_of_le hlt (by rw [Nat.mul_succ]; omega), Nat.mul_succ]
      omega
    have hbc : bitCount w (v >>> (w * m)) < 2 ^ w := lt_two_pow_self_of_le (bitCount_le _ _)
    have hshl : shl 64 (bitCount w (v >>> (w * m))) (w * m)
        = bitCount w (v >>> (w * m)) * 2 ^ (w * m) := by
      unfold shl
      rw [Nat.shiftLeft_eq]
      apply Nat.mod_eq_of_lt
      calc bitCount w (v >>> (w * m)) * 2 ^ (w * m) < 2 ^ w * 2 ^ (w * m) :=
            Nat.mul_lt_mul_of_pos_right hbc (Nat.two_pow_pos _)
        _ = 2 ^ (w * (m + 1)) := by rw [← Nat.pow_add, Nat.mul_succ, Nat.add_comm]
        _ ≤ 2 ^ 64 := Nat.pow_le_pow_right (by decide) hm
    have hor : 2 ^ (w * (m + 1)) * R ||| bitCount w (v >>> (w * m)) * 2 ^ (w * m)
        = 2 ^ (w * m) * (bitCount w (v >>> (w * m)) + 2 ^ w * R) := by
      rw [Nat.mul_succ]
      exact or_shifted R hbc
    rw [popcount_builtin_loop, if_neg hn]
    simp only [hsub, builtin_popcountll_chunk hw64, hshl, hor]
    rw [popcount_builtin_loop_spec w v hw hw64 m fuel _ (Nat.lt_of_succ_lt_succ h)
      (le_trans (Nat.mul_le_mul_left w (Nat.le_succ m)) hm), laneCounts_succ]
    have e : 2 ^ (w * (m + 1)) = 2 ^ (w * m) * 2 ^ w := by
      rw [Nat.mul_succ, Nat.pow_add]
    rw [e]
    congr 1
    ring

theorem popcount_builtin_eq_laneCounts (v : Nat) : ∀ L, L ≤ 3 →
    popcount_builtin L v = some (laneCounts (8 * 2 ^ L) (8 / 2 ^ L) v)
  | 0, _ => by
    have h := popcount_builtin_loop_spec 8 v (by decide) (by decide) 8 65 0 (by decide) (by decide)
    simpa [popcount_builtin] using h
  | 1, _ => by
    have h := popcount_builtin_loop_spec 16 v (by decide) (by decide) 4 65 0 (by decide) (by decide)
    simpa [popcount_builtin] using h
  | 2, _ => by
    have h := popcount_builtin_loop_spec 32 v (by decide) (by decide) 2 65 0 (by decide) (by decide)
    simpa [popcount_builtin] using h
  | 3, _ => by
    have h := popcount_builtin_loop_spec 64 v (by decide) (by decide) 1 65 0 (by decide) (by decide)
    simpa [popcount_builtin] using h
  | _ + 4, h => absurd h (by omega)

/-- For chunks of 8, 16 and 32 bits the hardware-assisted path returns what the
pure-logic path returns two levels up. -/
theorem popcount_builtin_eq_logic (v : Nat) (hv : v < 2 ^ 64) : ∀ L, L ≤ 2 →
    popcount_builtin L v = popcount_logic (L + 2) v
  | 0, _ => by
    rw [popcount_builtin_eq_laneCounts v 0 (by decide),
      popcount_logic_eq_laneCounts v hv 2 (by decide)]
    rfl
  | 1, _ => by
    rw [popcount_builtin_eq_laneCounts v 1 (by decide),
      popcount_logic_eq_laneCounts v hv 3 (by decide)]
    rfl
  | 2, _ => by
    rw [popcount_builtin_eq_laneCounts v 2 (by decide),
      popcount_logic_eq_laneCounts v hv 4 (by decide)]
    rfl
  | _ + 3, h => absurd h (by omega)

/-- Up to level 4 `popcount<Level>` returns what `popcount_logic<Level>` returns,
whichever path the selector `2 < Level` picks. -/
theorem popcount_eq_logic_below_top (v : Nat) (hv : v < 2 ^ 64) (Level : Nat)
    (hL : Level ≤ 4) : popcount Level v = popcount_logic Level v := by
  unfold popcount
  by_cases h : 2 < Level
  · rw [if_pos h, popcount_builtin_eq_logic v hv (Level - 2) (by omega)]
    have e : Level - 2 + 2 = Level := by omega
    rw [e]
  · rw [if_neg h]

/-- The top level of `popcount`, through `popcount_builtin<3>`, returns the number of
set bits of the 64 bit argument. -/
theorem popcount_top_eq_bitCount (v : Nat) :
    popcount 5 v = some ((List.range 64).countP (fun i => v.testBit i)) := by
  unfold popcount
  rw [if_pos (by decide), popcount_builtin_eq_laneCounts v 3 (by decide)]
  exact congrArg some (laneCounts_whole 64 v)

/-- C3 (the code at the failing input): for `v = 0xF0F0FFFF00013320`, which has 30 set
bits, `popcount_builtin<3>(v)` and `popcount<5>(v)` return 30, while
`popcount_logic<5>(v)`, to which the claim equates them, has no value; one level down
both paths return `0x1800000006`. -/
theorem popcount_top_has_no_logic_counterpart :
    popcount_builtin 3 0xF0F0FFFF00013320 = some 30 ∧
      popcount 5 0xF0F0FFFF00013320 = some 30 ∧
      popcount_logic 5 0xF0F0FFFF00013320 = none ∧
      popcount_builtin 2 0xF0F0FFFF00013320 = some 0x1800000006 ∧
      popcount_logic 4 0xF0F0FFFF00013320 = some 0x1800000006 := by
  refine ⟨?_, ?_, popcount_logic_top_none _, ?_, ?_⟩
  · rw [popcount_builtin_eq_laneCounts _ 3 (by decide)]
    decide
  · rw [popcount_top_eq_bitCount]
    decide
  · rw [popcount_builtin_eq_laneCounts _ 2 (by decide)]
    decide
  · rw [popcount_logic_eq_laneCounts 0xF0F0FFFF00013320 (by decide) 4 (by decide)]
    decide

/-! ## `makeBitmask` -/

theorem testBit_repeat_step (bits N v i : Nat) :
    ((v ||| (v <<< N)) % 2 ^ bits).testBit i
      = (decide (i < bits) && (v.testBit i || (decide (N ≤ i) && v.testBit (i - N)))) := by
  simp only [Nat.testBit_mod_two_pow, Nat.testBit_or, Nat.testBit_shiftLeft, ge_iff_le]

/-- After `r0` copies are in place, `Remaining` further steps of `repeat` leave a word
whose bit `i` is bit `i % N` of the pattern, for the `i` below `N * (r0 + Remaining + 1)`. -/
theorem testBit_repeat (bits N c : Nat) (hN : 0 < N) :
    ∀ (Remaining r0 v : Nat),
      (∀ i, v.testBit i = (decide (i < bits) && decide (i / N ≤ r0) && c.testBit (i % N))) →
      ∀ i, (BitmaskMaker.repeat bits N Remaining v).testBit i
        = (decide (i < bits) && decide (i / N ≤ r0 + Remaining) && c.testBit (i % N))
  | 0, r0, v, h => by
    intro i
    rw [BitmaskMaker.repeat, h i, Nat.add_zero]
  | Remaining + 1, r0, v, h => by
    intro i
    rw [BitmaskMaker.repeat]
    have e : r0 + (Remaining + 1) = (r0 + 1) + Remaining := by omega
    rw [e]
    apply testBit_repeat bits N c hN Remaining (r0 + 1)
    intro i
    rw [testBit_repeat_step, h i, h (i - N)]
    rcases Nat.lt_or_ge i N with hlt | hge
    · have hd : i / N = 0 := Nat.div_eq_of_lt hlt
      have hn : ¬ (N ≤ i) := by omega
      simp [hd, hn]
    · have hd : i / N = (i - N) / N + 1 := Nat.div_eq_sub_div hN hge
      have hm : i % N = (i - N) % N := Nat.mod_eq_sub_mod hge
      rw [hd, hm]
      by_cases hb : i < bits
      · have hb2 : i - N < bits := by omega
        by_cases hq : (i - N) / N ≤ r0
        · have hq2 : (i - N) / N + 1 ≤ r0 + 1 := by omega
          simp [hb, hb2, hge, hq, hq2]
        · have hq1 : ¬ ((i - N) / N + 1 ≤ r0) := by omega
          have hq2 : ¬ ((i - N) / N + 1 ≤ r0 + 1) := by omega
          simp [hb, hb2, hge, hq, hq1, hq2]
      · simp [hb]

/-- Bit `i` of `makeBitmask<N, T>(c)` is bit `i % N` of the pattern `c`. -/
theorem testBit_makeBitmask {N bits c : Nat} (hN : 0 < N) (hc : c < 2 ^ N)
    (hcb : c < 2 ^ bits) (i : Nat) :
    (makeBitmask N bits c).testBit i = (decide (i < bits) && c.testBit (i % N)) := by
  unfold makeBitmask
  have base : ∀ i, c.testBit i
      = (decide (i < bits) && decide (i / N ≤ 0) && c.testBit (i % N)) := by
    intro i
    rcases Nat.lt_or_ge i N with hlt | hge
    · have hd : i / N = 0 := Nat.div_eq_of_lt hlt
      have hm : i % N = i := Nat.mod_eq_of_lt hlt
      rw [hd, hm]
      by_cases hb : i < bits
      · simp [hb]
      · have : c.testBit i = false :=
          Nat.testBit_lt_two_pow (lt_of_lt_of_le hcb (Nat.pow_le_pow_right (by decide) (by omega)))
        simp [hb, this]
    · have : c.testBit i = false :=
        Nat.testBit_lt_two_pow (lt_of_lt_of_le hc (Nat.pow_le_pow_right (by decide) hge))
      have hd : ¬ (i / N ≤ 0) := by
        have := Nat.div_pos hge hN
        omega
      simp [this, hd]
  rw [testBit_repeat bits N c hN (bits / N) 0 c base i, Nat.zero_add]
  by_cases hb : i < bits
  · have : i / N ≤ bits / N := Nat.div_le_div_right (le_of_lt hb)
    simp [hb, this]
  · simp [hb]

theorem makeBitmask_lt {N bits c : Nat} (hN : 0 < N) (hc : c < 2 ^ N) (hcb : c < 2 ^ bits) :
    makeBitmask N bits c < 2 ^ bits := by
  apply Nat.lt_pow_two_of_testBit
  intro i hi
  have : ¬ (i < bits) := by omega
  rw [testBit_makeBitmask hN hc hcb]
  simp [this]

theorem lane_makeBitmask {N k c j : Nat} (hN : 0 < N) (hc : c < 2 ^ N) (hk : 0 < k)
    (hj : j < k) : lane N (makeBitmask N (N * k) c) j = c := by
  have hcb : c < 2 ^ (N * k) :=
    lt_of_lt_of_le hc (Nat.pow_le_pow_right (by decide) (Nat.le_mul_of_pos_right N hk))
  apply Nat.eq_of_testBit_eq
  intro b
  rw [testBit_lane, testBit_makeBitmask hN hc hcb]
  by_cases hb : b < N
  · have h1 : N * j + b < N * k := by
      calc N * j + b < N * j + N := by omega
        _ = N * (j + 1) := by ring
        _ ≤ N * k := Nat.mul_le_mul_left N hj
    have h2 : (N * j + b) % N = b := by
      rw [Nat.mul_add_mod, Nat.mod_eq_of_lt hb]
    simp [hb, h1, h2]
  · have : c.testBit b = false :=
      Nat.testBit_lt_two_pow (lt_of_lt_of_le hc (Nat.pow_le_pow_right (by decide) (by omega)))
    simp [hb, this]

/-- The word `makeBitmask<N, T>(c)` holds the pattern `c` in every lane. -/
theorem makeBitmask_eq_pack {N k c : Nat} (hN : 0 < N) (hc : c < 2 ^ N) (hk : 0 < k) :
    makeBitmask N (N * k) c = pack N k (fun _ => c) := by
  have hcb : c < 2 ^ (N * k) :=
    lt_of_lt_of_le hc (Nat.pow_le_pow_right (by decide) (Nat.le_mul_of_pos_right N hk))
  rw [← pack_lane N k _ (makeBitmask_lt hN hc hcb)]
  apply pack_congr
  intro j hj
  exact lane_makeBitmask hN hc hk hj

/-! ## Lane-wise arithmetic -/

theorem lane_or (N a b j : Nat) : lane N (a ||| b) j = lane N a j ||| lane N b j := by
  apply Nat.eq_of_testBit_eq
  intro i
  simp only [testBit_lane, Nat.testBit_or]
  cases decide (i < N) <;> simp

theorem pack_le (N : Nat) (k : Nat) (f g : Nat → Nat) (h : ∀ j, j < k → g j ≤ f j) :
    pack N k g ≤ pack N k f := by
  have hle : ∀ j, j < k → (fun j => f j - g j) j + g j = f j := fun j hj => by
    have := h j hj
    simp only []
    omega
  have e := pack_add N k (fun j => f j - g j) g
  rw [pack_congr N k _ f hle] at e
  omega

/-- When no lane of `b` exceeds the same lane of `a`, the machine subtraction `a - b`
subtracts lane by lane: no lane borrows from the next. -/
theorem wsub_lanes {N k a b : Nat} (ha : a < 2 ^ (N * k)) (hb : b < 2 ^ (N * k))
    (h : ∀ j, j < k → lane N b j ≤ lane N a j) :
    wsub (N * k) a b = pack N k (fun j => lane N a j - lane N b j) := by
  have ea := pack_lane N k a ha
  have eb := pack_lane N k b hb
  have hle : b ≤ a := by
    rw [← ea, ← eb]
    exact pack_le N k _ _ h
  rw [wsub_of_le ha hle]
  conv_lhs => rw [← ea, ← eb]
  exact pack_sub N k _ _ h

theorem testBit_top_of_lt {n d : Nat} (h : d < 2 ^ (n + 1)) :
    d.testBit n = true ↔ 2 ^ n ≤ d := by
  constructor
  · exact Nat.testBit_implies_ge
  · intro hge
    by_contra hf
    have hlt : d < 2 ^ n := by
      apply Nat.lt_pow_two_of_testBit
      intro i hi
      rcases Nat.eq_or_lt_of_le hi with e | hlt
      · rw [← e]
        simpa using hf
      · exact Nat.testBit_lt_two_pow
          (lt_of_lt_of_le h (Nat.pow_le_pow_right (by decide) hlt))
    omega

theorem or_msb_of_lt {n x : Nat} (h : x < 2 ^ n) : x ||| 2 ^ n = x + 2 ^ n := by
  have := Nat.mul_add_lt_is_or h 1
  rw [Nat.mul_one] at this
  rw [Nat.or_comm, ← this, Nat.add_comm]

theorem or_msb_ge (n x : Nat) : 2 ^ n ≤ x ||| 2 ^ n := by
  apply Nat.testBit_implies_ge
  simp [Nat.testBit_or, Nat.testBit_two_pow_self]

theorem or_msb_lt {n x : Nat} (h : x < 2 ^ (n + 1)) : x ||| 2 ^ n < 2 ^ (n + 1) :=
  Nat.or_lt_two_pow h (Nat.pow_lt_pow_right (by decide) (Nat.lt_succ_self n))

/-- The lanes of `greaterEqual<K>(v)` when `K` is at most `2 ^ (NBits - 1)`: with the
guard bit set every lane is at least `K`, so the subtraction stays inside each lane. -/
theorem lane_greaterEqual {K n k v i : Nat} (hK : K ≤ 2 ^ n) (hv : v < 2 ^ ((n + 1) * k))
    (hi : i < k) :
    lane (n + 1) (greaterEqual K (n + 1) ((n + 1) * k) v) i
      = ((lane (n + 1) v i ||| 2 ^ n) - K) &&& 2 ^ n := by
  have hk : 0 < k := by omega
  have hN : 0 < n + 1 := Nat.succ_pos n
  have hpow : 2 ^ n < 2 ^ (n + 1) := Nat.pow_lt_pow_right (by decide) (Nat.lt_succ_self n)
  have hKN : K < 2 ^ (n + 1) := lt_of_le_of_lt hK hpow
  have hbits : n + 1 ≤ (n + 1) * k := Nat.le_mul_of_pos_right _ hk
  have hKb : K < 2 ^ ((n + 1) * k) :=
    lt_of_lt_of_le hKN (Nat.pow_le_pow_right (by decide) hbits)
  have hmsb : shl ((n + 1) * k) 1 (n + 1 - 1) = 2 ^ n := by
    rw [Nat.add_sub_cancel]
    exact shl_one_of_lt (by omega)
  have hmb : 2 ^ n < 2 ^ ((n + 1) * k) :=
    lt_of_lt_of_le hpow (Nat.pow_le_pow_right (by decide) hbits)
  unfold greaterEqual
  simp only [hmsb, Nat.mod_eq_of_lt hKb]
  have hmask := makeBitmask_lt hN hpow hmb
  have hsubt := makeBitmask_lt hN hKN hKb
  have hadj : v ||| makeBitmask (n + 1) ((n + 1) * k) (2 ^ n) < 2 ^ ((n + 1) * k) :=
    Nat.or_lt_two_pow hv hmask
  have hlanes : ∀ j, j < k →
      lane (n + 1) (makeBitmask (n + 1) ((n + 1) * k) K) j
        ≤ lane (n + 1) (v ||| makeBitmask (n + 1) ((n + 1) * k) (2 ^ n)) j := by
    intro j hj
    rw [lane_or, lane_makeBitmask hN hKN hk hj, lane_makeBitmask hN hpow hk hj]
    exact le_trans hK (or_msb_ge n _)
  rw [lane_and, wsub_lanes hadj hsubt hlanes, lane_makeBitmask hN hpow hk hi, lane_pack _ _ _ _ _ hi]
  · rw [lane_or, lane_makeBitmask hN hKN hk hi, lane_makeBitmask hN hpow hk hi]
  · intro j hj
    rw [lane_or, lane_makeBitmask hN hKN hk hj, lane_makeBitmask hN hpow hk hj]
    exact lt_of_le_of_lt (Nat.sub_le _ _) (or_msb_lt (lane_lt _ _ _))

theorem testBit_lane_msb (n x i : Nat) :
    x.testBit ((n + 1) * i + n) = (lane (n + 1) x i).testBit n := by
  rw [testBit_lane]
  simp

/-! ## `greaterEqual` -/

/-- C1 (as stated, refuted): in the 64 bit word holding the bytes
`[3,7,255,0,128,1,9,64]` (lane 0 first), lane 4 holds `128 >= 100`, and yet the
most-significant bit of lane 4 of `greaterEqual<100>` is clear: the result is
`0x800000`, lane 2 alone.  And with `K = 2 ^ 8 - 1 = 255` on the all-zero word the
most-significant bit of lane 0 is set, although lane 0 holds `0 < 255`. -/
theorem greaterEqual_misses_lane_with_msb_set :
    ¬ ((greaterEqual 100 8 64 0x4009018000FF0703).testBit (8 * 4 + (8 - 1)) = true
        ↔ 100 ≤ SWAR.at 8 64 0x4009018000FF0703 4) ∧
      greaterEqual 100 8 64 0x4009018000FF0703 = 0x800000 ∧
      ¬ ((greaterEqual 255 8 64 0).testBit (8 * 0 + (8 - 1)) = true
        ↔ 255 ≤ SWAR.at 8 64 0 0) := by
  decide

/-- C1 (as amended): for every lane width `NBits > 1` dividing the width of `T`, every
packed word `v`, every constant `K` with `K <= 2 ^ (NBits - 1)` and every lane index
`i` whose lane value is below `2 ^ (NBits - 1)` (its most-significant bit is clear),
the most-significant bit of lane `i` of `greaterEqual<K>(v)` is set iff
`v.at(i) >= K`; the other lanes of `v` are arbitrary. -/
theorem greaterEqual_truth_bit_of_msb_clear (K NBits bits v i : Nat) (hN : 1 < NBits)
    (hd : NBits ∣ bits) (hv : v < 2 ^ bits) (hK : K ≤ 2 ^ (NBits - 1))
    (hi : i < bits / NBits) (hlane : SWAR.at NBits bits v i < 2 ^ (NBits - 1)) :
    (greaterEqual K NBits bits v).testBit (NBits * i + (NBits - 1)) = true
      ↔ K ≤ SWAR.at NBits bits v i := by
  obtain ⟨n, rfl⟩ : ∃ n, NBits = n + 1 := ⟨NBits - 1, by omega⟩
  obtain ⟨k, rfl⟩ := hd
  have hk : (n + 1) * k / (n + 1) = k := Nat.mul_div_cancel_left k (Nat.succ_pos n)
  rw [hk] at hi
  have hkpos : 0 < k := by omega
  have hle : n + 1 ≤ (n + 1) * k := Nat.le_mul_of_pos_right _ hkpos
  rw [Nat.add_sub_cancel] at hK hlane ⊢
  rw [at_eq_lane hle] at hlane ⊢
  rw [testBit_lane_msb, lane_greaterEqual hK hv hi, Nat.testBit_and, Nat.testBit_two_pow_self,
    Bool.and_true, or_msb_of_lt hlane]
  have hpow : 2 ^ (n + 1) = 2 * 2 ^ n := by rw [Nat.pow_succ]; omega
  have hd : lane (n + 1) v i + 2 ^ n - K < 2 ^ (n + 1) := by omega
  rw [testBit_top_of_lt hd]
  omega

/-- C1 (as amended), at `K = 100` and the bytes `[3,110,0,0,0,0,0,0]`: lane 1 holds
`110` and its truth bit is set. -/
theorem greaterEqual_truth_bit_of_msb_clear_witness :
    SWAR.at 8 64 0x6E03 1 < 2 ^ (8 - 1) ∧
      ((greaterEqual 100 8 64 0x6E03).testBit (8 * 1 + (8 - 1)) = true
        ↔ 100 ≤ SWAR.at 8 64 0x6E03 1) :=
  ⟨by decide, greaterEqual_truth_bit_of_msb_clear 100 8 64 0x6E03 1 (by decide) (by decide)
    (by decide) (by decide) (by decide) (by decide)⟩

/-! ## Leading and trailing zeros, `top`, `best` and `lsbIndex` -/

theorem clzFrom_spec (x : Nat) : ∀ n, (∃ b, b < n ∧ x.testBit b = true) →
    clzFrom x n < n ∧ x.testBit (n - 1 - clzFrom x n) = true ∧
      ∀ b, n - 1 - clzFrom x n < b → b < n → x.testBit b = false
  | 0, ⟨_, hb, _⟩ => absurd hb (Nat.not_lt_zero _)
  | n + 1, ⟨b, hb, hx⟩ => by
    by_cases hn : x.testBit n = true
    · rw [clzFrom, if_pos hn]
      refine ⟨Nat.succ_pos n, by simpa using hn, ?_⟩
      intro c h1 h2
      omega
    · rw [clzFrom, if_neg hn]
      have hbn : b < n := by
        rcases Nat.lt_or_ge b n with h | h
        · exact h
        · have e : b = n := by omega
          rw [e] at hx
          exact absurd hx hn
      obtain ⟨h1, h2, h3⟩ := clzFrom_spec x n ⟨b, hbn, hx⟩
      have e : n + 1 - 1 - (1 + clzFrom x n) = n - 1 - clzFrom x n := by omega
      rw [e]
      refine ⟨by omega, h2, ?_⟩
      intro c hc1 hc2
      rcases Nat.lt_or_ge c n with h | h
      · exact h3 c hc1 h
      · have e : c = n := by omega
        rw [e]
        simpa using hn

theorem exists_testBit_lt {bits v : Nat} (hv : v < 2 ^ bits) (hne : v ≠ 0) :
    ∃ b, b < bits ∧ v.testBit b = true := by
  obtain ⟨b, hb⟩ := Nat.ne_zero_implies_bit_true hne
  refine ⟨b, ?_, hb⟩
  by_contra h
  have : v.testBit b = false :=
    Nat.testBit_lt_two_pow (lt_of_lt_of_le hv (Nat.pow_le_pow_right (by decide) (by omega)))
  rw [this] at hb
  exact Bool.noConfusion hb

/-- For a nonzero 64 bit word `msb_index` is the position of the highest set bit. -/
theorem msb_index_spec {v : Nat} (hv : v < 2 ^ 64) (hne : v ≠ 0) :
    v.testBit (msb_index 64 v) = true ∧ ∀ b, msb_index 64 v < b → v.testBit b = false := by
  obtain ⟨h1, h2, h3⟩ := clzFrom_spec v 64 (exists_testBit_lt hv hne)
  have e : msb_index 64 v = 64 - 1 - clzFrom v 64 := by
    unfold msb_index builtin_clzll
    rw [Nat.mod_eq_of_lt hv]
    have a : wsub 64 64 1 = 63 := by decide
    rw [a, wsub_of_le (by decide) (by omega)]
    exact Nat.mod_eq_of_lt (by omega)
  rw [e]
  refine ⟨h2, ?_⟩
  intro b hb
  rcases Nat.lt_or_ge b 64 with h | h
  · exact h3 b hb h
  · exact Nat.testBit_lt_two_pow (lt_of_lt_of_le hv (Nat.pow_le_pow_right (by decide) h))

/-- C6: for every lane width dividing 64 and every 64 bit Boolean lane word `X` whose
set bits are all lane most-significant bits and that has a truth bit set, `X.best()`
is the greatest lane index whose truth bit is set: that lane is true, and no true lane
has a greater index. -/
theorem best_is_greatest_true_lane (NBits X : Nat) (hd : NBits ∣ 64) (hX : X < 2 ^ 64)
    (hmsb : ∀ b, X.testBit b = true → b % NBits = NBits - 1)
    (hne : ∃ i, X.testBit (NBits * i + (NBits - 1)) = true) :
    X.testBit (NBits * BooleanSWAR.best NBits 64 X + (NBits - 1)) = true ∧
      ∀ j, X.testBit (NBits * j + (NBits - 1)) = true → j ≤ BooleanSWAR.best NBits 64 X := by
  have hN : 0 < NBits := Nat.pos_of_dvd_of_pos hd (by decide)
  have hX0 : X ≠ 0 := by
    obtain ⟨i, hi⟩ := hne
    intro h
    rw [h] at hi
    simp at hi
  obtain ⟨h1, h2⟩ := msb_index_spec hX hX0
  unfold BooleanSWAR.best SWAR.top
  have hm := hmsb _ h1
  have hdm := Nat.div_add_mod (msb_index 64 X) NBits
  rw [hm] at hdm
  refine ⟨by rw [hdm]; exact h1, ?_⟩
  intro j hj
  have hle : NBits * j + (NBits - 1) ≤ msb_index 64 X := by
    by_contra hc
    have := h2 (NBits * j + (NBits - 1)) (by omega)
    rw [this] at hj
    exact Bool.noConfusion hj
  apply (Nat.le_div_iff_mul_le hN).mpr
  rw [Nat.mul_comm]
  omega

/-- C6, with 8 bit lanes and exactly lanes 1 and 6 true: `best()` is 6. -/
theorem best_is_greatest_true_lane_witness :
    BooleanSWAR.best 8 64 0x0080000000008000 = 6 ∧
      (0x0080000000008000 : Nat).testBit (8 * BooleanSWAR.best 8 64 0x0080000000008000 + (8 - 1))
        = true ∧
      ∀ j, (0x0080000000008000 : Nat).testBit (8 * j + (8 - 1)) = true →
        j ≤ BooleanSWAR.best 8 64 0x0080000000008000 :=
  ⟨by decide, best_is_greatest_true_lane 8 0x0080000000008000 (by decide) (by decide)
    (by
      intro b hb
      have hlt : b < 64 := by
        by_contra h
        have : (0x0080000000008000 : Nat).testBit b = false :=
          Nat.testBit_lt_two_pow (lt_of_lt_of_le (by decide : 0x0080000000008000 < 2 ^ 64)
            (Nat.pow_le_pow_right (by decide) (by omega)))
        rw [this] at hb
        exact Bool.noConfusion hb
      revert hb
      revert b
      decide)
    ⟨1, by decide⟩⟩

/-- C7 (the code at the failing input): for `T = uint32_t`, 8 bit lanes and the word
`1`, whose only nonzero lane is lane 0, `top()` returns `536870908`; for `uint8_t` and
`uint16_t` it returns 25 and 8186.  With `T = uint64_t` it returns 0. -/
theorem top_wrong_for_narrow_types :
    SWAR.top 8 32 1 = 536870908 ∧ SWAR.at 8 32 1 0 = 1 ∧
      SWAR.top 8 8 1 = 25 ∧ SWAR.top 8 16 1 = 8186 ∧ SWAR.top 8 64 1 = 0 := by
  decide

theorem ctzFrom_spec (x : Nat) : ∀ fuel i, (∃ b, i ≤ b ∧ b < i + fuel ∧ x.testBit b = true) →
    x.testBit (i + ctzFrom x fuel i) = true ∧
      ∀ b, i ≤ b → b < i + ctzFrom x fuel i → x.testBit b = false
  | 0, i, ⟨b, h1, h2, _⟩ => absurd h2 (by omega)
  | fuel + 1, i, ⟨b, h1, h2, hx⟩ => by
    by_cases hn : x.testBit i = true
    · rw [ctzFrom, if_pos hn]
      refine ⟨by simpa using hn, ?_⟩
      intro c hc1 hc2
      omega
    · rw [ctzFrom, if_neg hn]
      have hib : i + 1 ≤ b := by
        rcases Nat.lt_or_ge i b with h | h
        · exact h
        · have e : b = i := by omega
          rw [e] at hx
          exact absurd hx hn
      obtain ⟨h3, h4⟩ := ctzFrom_spec x fuel (i + 1) ⟨b, hib, by omega, hx⟩
      have e : i + (1 + ctzFrom x fuel (i + 1)) = i + 1 + ctzFrom x fuel (i + 1) := by omega
      rw [e]
      refine ⟨h3, ?_⟩
      intro c hc1 hc2
      rcases Nat.lt_or_ge i c with h | h
      · exact h4 c h hc2
      · have e : c = i := by omega
        rw [e]
        simpa using hn

/-- For a nonzero word of at most 64 bits `__builtin_ctzll` is the position of the
lowest set bit. -/
theorem builtin_ctzll_spec {v : Nat} (hv : v < 2 ^ 64) (hne : v ≠ 0) :
    v.testBit (builtin_ctzll v) = true ∧ ∀ b, b < builtin_ctzll v → v.testBit b = false := by
  obtain ⟨b, hb, hx⟩ := exists_testBit_lt hv hne
  obtain ⟨h1, h2⟩ := ctzFrom_spec v 64 0 ⟨b, Nat.zero_le b, by omega, hx⟩
  unfold builtin_ctzll
  rw [Nat.mod_eq_of_lt hv]
  rw [Nat.zero_add] at h1 h2
  exact ⟨h1, fun c hc => h2 c (Nat.zero_le c) hc⟩

theorem lane_eq_zero_of_bits {N x j : Nat} (h : ∀ b, b < N → x.testBit (N * j + b) = false) :
    lane N x j = 0 := by
  apply Nat.eq_of_testBit_eq
  intro b
  rw [testBit_lane, Nat.zero_testBit]
  by_cases hb : b < N
  · simp [hb, h b hb]
  · simp [hb]

/-- C8: for every backing type of 8, 16, 32 or 64 bits, every lane width dividing it
and every nonzero word `v`, `lsbIndex()` is the index of the lane that contains the
least-significant set bit of `v`, which is the least lane index `i` with
`at(i) != 0`. -/
theorem lsbIndex_is_lowest_nonzero_lane (NBits bits v : Nat)
    (hT : bits = 8 ∨ bits = 16 ∨ bits = 32 ∨ bits = 64) (hd : NBits ∣ bits)
    (hv : v < 2 ^ bits) (hne : v ≠ 0) :
    (∃ b, v.testBit b = true ∧ (∀ c, c < b → v.testBit c = false) ∧
        NBits * SWAR.lsbIndex NBits v ≤ b ∧ b < NBits * (SWAR.lsbIndex NBits v + 1)) ∧
      SWAR.lsbIndex NBits v < bits / NBits ∧
      SWAR.at NBits bits v (SWAR.lsbIndex NBits v) ≠ 0 ∧
      ∀ j, j < SWAR.lsbIndex NBits v → SWAR.at NBits bits v j = 0 := by
  have hb64 : bits ≤ 64 := by omega
  have hbpos : 0 < bits := by omega
  have hN : 0 < NBits := Nat.pos_of_dvd_of_pos hd hbpos
  have hNle : NBits ≤ bits := Nat.le_of_dvd hbpos hd
  have hv64 : v < 2 ^ 64 := lt_of_lt_of_le hv (Nat.pow_le_pow_right (by decide) hb64)
  obtain ⟨h1, h2⟩ := builtin_ctzll_spec hv64 hne
  have hdm := Nat.div_add_mod (builtin_ctzll v) NBits
  have hmod : builtin_ctzll v % NBits < NBits := Nat.mod_lt _ hN
  have htb : builtin_ctzll v < bits := by
    by_contra h
    have : v.testBit (builtin_ctzll v) = false :=
      Nat.testBit_lt_two_pow (lt_of_lt_of_le hv (Nat.pow_le_pow_right (by decide) (by omega)))
    rw [this] at h1
    exact Bool.noConfusion h1
  unfold SWAR.lsbIndex
  refine ⟨⟨builtin_ctzll v, h1, h2, by omega, ?_⟩, ?_, ?_, ?_⟩
  · rw [Nat.mul_succ]
    omega
  · obtain ⟨k, rfl⟩ := hd
    rw [Nat.mul_div_cancel_left k hN]
    exact Nat.div_lt_of_lt_mul htb
  · rw [at_eq_lane hNle]
    intro h0
    have hbit := testBit_lane NBits v (builtin_ctzll v / NBits) (builtin_ctzll v % NBits)
    rw [h0, Nat.zero_testBit, hdm, h1] at hbit
    simp [hmod] at hbit
  · intro j hj
    rw [at_eq_lane hNle]
    apply lane_eq_zero_of_bits
    intro b hb
    apply h2
    have : NBits * (j + 1) ≤ NBits * (builtin_ctzll v / NBits) := Nat.mul_le_mul_left _ hj
    rw [Nat.mul_succ] at this
    omega

/-- C8, for `uint16_t` with 4 bit lanes and the word `0x0A00`: the lowest set bit is
in lane 2. -/
theorem lsbIndex_is_lowest_nonzero_lane_witness :
    SWAR.lsbIndex 4 0x0A00 = 2 ∧
      ((∃ b, (0x0A00 : Nat).testBit b = true ∧ (∀ c, c < b → (0x0A00 : Nat).testBit c = false) ∧
          4 * SWAR.lsbIndex 4 0x0A00 ≤ b ∧ b < 4 * (SWAR.lsbIndex 4 0x0A00 + 1)) ∧
        SWAR.lsbIndex 4 0x0A00 < 16 / 4 ∧
        SWAR.at 4 16 0x0A00 (SWAR.lsbIndex 4 0x0A00) ≠ 0 ∧
        ∀ j, j < SWAR.lsbIndex 4 0x0A00 → SWAR.at 4 16 0x0A00 j = 0) :=
  ⟨by decide, lsbIndex_is_lowest_nonzero_lane 4 16 0x0A00 (by decide) (by decide) (by decide)
    (by decide)⟩

/-! ## `at`, `clear` and `set` -/

theorem testBit_wnot {bits x : Nat} (hx : x < 2 ^ bits) (b : Nat) :
    (wnot bits x).testBit b = (decide (b < bits) && !x.testBit b) := by
  unfold wnot
  rw [Nat.mod_eq_of_lt hx, Nat.sub_sub, Nat.add_comm 1 x]
  exact Nat.testBit_two_pow_sub_succ hx b

theorem testBit_SWAR_clear {NBits bits : Nat} (h : NBits ≤ bits) (m_v position b : Nat) :
    (SWAR.clear NBits bits m_v position).testBit b
      = (m_v.testBit b && (decide (b < bits) &&
          !(decide (NBits * position ≤ b) && decide (b - NBits * position < NBits)))) := by
  unfold SWAR.clear
  simp only []
  have hx : shl bits (2 ^ NBits - 1) (NBits * position) < 2 ^ bits :=
    Nat.mod_lt _ (Nat.two_pow_pos _)
  rw [filter_eq h, Nat.testBit_and, testBit_wnot hx]
  unfold shl
  rw [Nat.testBit_mod_two_pow, Nat.testBit_shiftLeft, Nat.testBit_two_pow_sub_one]
  by_cases hb : b < bits <;> simp [hb]

theorem lanes_apart {N i j b c : Nat} (hij : j ≠ i) (hb : b < N) (hc : c < N) :
    N * j + b < N * i ∨ N * i + c < N * j := by
  rcases Nat.lt_or_gt_of_ne hij with h | h
  · left
    have : N * (j + 1) ≤ N * i := Nat.mul_le_mul_left _ h
    rw [Nat.mul_succ] at this
    omega
  · right
    have : N * (i + 1) ≤ N * j := Nat.mul_le_mul_left _ h
    rw [Nat.mul_succ] at this
    omega

theorem lane_bit_lt {N k j b : Nat} (hj : j < k) (hb : b < N) : N * j + b < N * k := by
  have : N * (j + 1) ≤ N * k := Nat.mul_le_mul_left _ hj
  rw [Nat.mul_succ] at this
  omega

/-- C9: for every lane width `NBits` dividing and smaller than the width of `T`, every
word `w` and lane indices `i`, `j` in range, `w.clear(i).at(i) == 0`, and
`w.clear(i).at(j) == w.at(j)` whenever `j != i`. -/
theorem clear_zeroes_exactly_one_lane (NBits bits w i j : Nat) (hd : NBits ∣ bits)
    (hlt : NBits < bits) (hw : w < 2 ^ bits) (hi : i < bits / NBits)
    (hj : j < bits / NBits) :
    SWAR.at NBits bits (SWAR.clear NBits bits w i) i = 0 ∧
      (j ≠ i → SWAR.at NBits bits (SWAR.clear NBits bits w i) j = SWAR.at NBits bits w j) := by
  have hle : NBits ≤ bits := le_of_lt hlt
  have hN : 0 < NBits := by
    rcases Nat.eq_zero_or_pos NBits with h | h
    · rw [h] at hd
      have := Nat.eq_zero_of_zero_dvd hd
      omega
    · exact h
  obtain ⟨k, rfl⟩ := hd
  rw [Nat.mul_div_cancel_left k hN] at hi hj
  simp only [at_eq_lane hle]
  constructor
  · apply lane_eq_zero_of_bits
    intro b hb
    rw [testBit_SWAR_clear hle]
    have h1 : NBits * i ≤ NBits * i + b := Nat.le_add_right _ _
    have h2 : NBits * i + b - NBits * i < NBits := by omega
    rw [decide_eq_true h1, decide_eq_true h2]
    simp
  · intro hij
    apply Nat.eq_of_testBit_eq
    intro b
    rw [testBit_lane, testBit_lane, testBit_SWAR_clear hle]
    by_cases hb : b < NBits
    · have h0 := lane_bit_lt hj hb
      have hz : (decide (NBits * i ≤ NBits * j + b)
          && decide (NBits * j + b - NBits * i < NBits)) = false := by
        rw [Bool.and_eq_false_iff]
        rcases lanes_apart hij hb (Nat.sub_lt hN Nat.one_pos : NBits - 1 < NBits) with h | h
        · left
          exact decide_eq_false (by omega)
        · right
          exact decide_eq_false (by omega)
      rw [hz, decide_eq_true h0]
      simp
    · simp [hb]

/-- C9, for `uint32_t` with 8 bit lanes: clearing lane 2 of `0xAABBCCDD`. -/
theorem clear_zeroes_exactly_one_lane_witness :
    SWAR.at 8 32 (SWAR.clear 8 32 0xAABBCCDD 2) 2 = 0 ∧
      ((3 : Nat) ≠ 2 →
        SWAR.at 8 32 (SWAR.clear 8 32 0xAABBCCDD 2) 3 = SWAR.at 8 32 0xAABBCCDD 3) :=
  clear_zeroes_exactly_one_lane 8 32 0xAABBCCDD 2 3 (by decide) (by decide) (by decide)
    (by decide) (by decide)

theorem testBit_SWAR_set {bits s : Nat} (hs : s < bits) (m_v b : Nat) :
    (m_v ||| shl bits 1 s).testBit b = (m_v.testBit b || decide (s = b)) := by
  rw [shl_one_of_lt hs, Nat.testBit_or, Nat.testBit_two_pow]

/-- C10: for every lane width `NBits` dividing and smaller than the width of `T`, every
word `w`, lane indices `i`, `j` in range and bit position `b < NBits`,
`w.set(i, b).at(i) == (w.at(i) | 2 ^ b)`, and `w.set(i, b).at(j) == w.at(j)` whenever
`j != i`. -/
theorem set_sets_one_bit_of_one_lane (NBits bits w i j b : Nat) (hd : NBits ∣ bits)
    (hlt : NBits < bits) (hw : w < 2 ^ bits) (hi : i < bits / NBits)
    (hj : j < bits / NBits) (hb : b < NBits) :
    SWAR.at NBits bits (SWAR.set NBits bits w i b) i = (SWAR.at NBits bits w i ||| 2 ^ b) ∧
      (j ≠ i → SWAR.at NBits bits (SWAR.set NBits bits w i b) j = SWAR.at NBits bits w j) := by
  have hle : NBits ≤ bits := le_of_lt hlt
  have hN : 0 < NBits := by omega
  obtain ⟨k, rfl⟩ := hd
  rw [Nat.mul_div_cancel_left k hN] at hi hj
  have hs : i * NBits + b < NBits * k := by
    rw [Nat.mul_comm i]
    exact lane_bit_lt hi hb
  simp only [at_eq_lane hle]
  unfold SWAR.set
  constructor
  · apply Nat.eq_of_testBit_eq
    intro c
    rw [testBit_lane, testBit_SWAR_set hs, Nat.testBit_or, testBit_lane, Nat.testBit_two_pow,
      Nat.mul_comm i]
    by_cases hc : c < NBits
    · by_cases hbc : b = c
      · simp [hc, hbc]
      · have : ¬ (NBits * i + b = NBits * i + c) := by omega
        simp [hc, hbc, this]
    · have : ¬ (b = c) := by omega
      simp [hc, this]
  · intro hij
    apply Nat.eq_of_testBit_eq
    intro c
    rw [testBit_lane, testBit_lane, testBit_SWAR_set hs, Nat.mul_comm i]
    by_cases hc : c < NBits
    · have : ¬ (NBits * i + b = NBits * j + c) := by
        rcases lanes_apart hij hc hb with h | h <;> omega
      simp [hc, this]
    · simp [hc]

/-- C10, for `uint32_t` with 8 bit lanes: setting bit 4 of lane 1 of `0xAABB0CDD`. -/
theorem set_sets_one_bit_of_one_lane_witness :
    SWAR.at 8 32 (SWAR.set 8 32 0xAABB0CDD 1 4) 1 = (SWAR.at 8 32 0xAABB0CDD 1 ||| 2 ^ 4) ∧
      ((3 : Nat) ≠ 1 →
        SWAR.at 8 32 (SWAR.set 8 32 0xAABB0CDD 1 4) 3 = SWAR.at 8 32 0xAABB0CDD 3) :=
  set_sets_one_bit_of_one_lane 8 32 0xAABB0CDD 1 3 4 (by decide) (by decide) (by decide)
    (by decide) (by decide) (by decide)

/-! ## `broadcast` -/

theorem pack_mul (N c : Nat) : ∀ (k : Nat) (f : Nat → Nat),
    c * pack N k f = pack N k (fun j => c * f j)
  | 0, _ => rfl
  | k + 1, f => by
    simp only [pack]
    rw [← pack_mul N c k (fun j => f (j + 1))]
    ring

/-- Multiplying a scalar below `2 ^ N` by the word of ones puts it in every lane. -/
theorem broadcast_eq_pack {N k w : Nat} (hN : 0 < N) (hk : 0 < k) (hw : w < 2 ^ N) :
    broadcast N (N * k) w = pack N k (fun _ => w) := by
  have h1 : (1 : Nat) < 2 ^ N := Nat.one_lt_two_pow (by omega)
  unfold broadcast wmul
  simp only []
  rw [makeBitmask_eq_pack hN h1 hk, pack_mul]
  simp only [Nat.mul_one]
  exact Nat.mod_eq_of_lt (pack_lt N k _ (fun _ _ => hw))

/-- C11 (as stated, refuted): with 8 bit lanes in a 64 bit word, `w = 0x0201` has
`w.at(0) = 1`, and 1 times the 8 lanes does not overflow; yet lane 1 of `broadcast(w)`
is 3, because the whole word and not its lane 0 is multiplied by the ones mask. -/
theorem broadcast_multiplies_the_whole_word :
    SWAR.at 8 64 0x0201 0 * (64 / 8) < 2 ^ 64 ∧
      SWAR.at 8 64 (broadcast 8 64 0x0201) 1 = 3 ∧
      SWAR.at 8 64 (broadcast 8 64 0x0201) 1 ≠ SWAR.at 8 64 0x0201 0 := by
  decide

/-- C11 (as amended): for every lane width `NBits` dividing and smaller than the width
of `T` and every word `w` whose lanes other than lane 0 are zero (`w < 2 ^ NBits`),
every lane `i` of `broadcast(w)` equals `w.at(0)`. -/
theorem broadcast_replicates_lane_zero (NBits bits w i : Nat) (hd : NBits ∣ bits)
    (hlt : NBits < bits) (hw : w < 2 ^ NBits) (hi : i < bits / NBits) :
    SWAR.at NBits bits (broadcast NBits bits w) i = SWAR.at NBits bits w 0 := by
  have hN : 0 < NBits := by
    rcases Nat.eq_zero_or_pos NBits with h | h
    · rw [h] at hd
      have := Nat.eq_zero_of_zero_dvd hd
      omega
    · exact h
  obtain ⟨k, rfl⟩ := hd
  rw [Nat.mul_div_cancel_left k hN] at hi
  have hk : 0 < k := by omega
  rw [at_eq_lane (le_of_lt hlt), at_eq_lane (le_of_lt hlt), broadcast_eq_pack hN hk hw,
    lane_pack NBits k _ i (fun _ _ => hw) hi, lane_zero, Nat.mod_eq_of_lt hw]

/-- C11 (as amended), for `uint32_t` with 8 bit lanes and the scalar `0x5A`. -/
theorem broadcast_replicates_lane_zero_witness :
    broadcast 8 32 0x5A = 0x5A5A5A5A ∧
      SWAR.at 8 32 (broadcast 8 32 0x5A) 3 = SWAR.at 8 32 0x5A 0 :=
  ⟨by decide, broadcast_replicates_lane_zero 8 32 0x5A 3 (by decide) (by decide) (by decide)
    (by decide)⟩

/-! ## `greaterEqual_MSB_off` -/

theorem MSBs_eq_makeBitmask {n k : Nat} (hk : 0 < k) :
    BooleanSWAR.MSBs (n + 1) ((n + 1) * k) = makeBitmask (n + 1) ((n + 1) * k) (2 ^ n) := by
  have hpow : 2 ^ n < 2 ^ (n + 1) := Nat.pow_lt_pow_right (by decide) (Nat.lt_succ_self n)
  have hs : shl ((n + 1) * k) 1 (n + 1 - 1) = 2 ^ n := by
    rw [Nat.add_sub_cancel]
    exact shl_one_of_lt (lt_of_lt_of_le (Nat.lt_succ_self n) (Nat.le_mul_of_pos_right _ hk))
  unfold BooleanSWAR.MSBs
  rw [hs, broadcast_eq_pack (Nat.succ_pos n) hk hpow,
    makeBitmask_eq_pack (Nat.succ_pos n) hpow hk]

/-- A word that is masked with the lane most-significant bits has no other bit set. -/
theorem msb_of_testBit_and_mask {n k x b : Nat} (hk : 0 < k)
    (h : (x &&& makeBitmask (n + 1) ((n + 1) * k) (2 ^ n)).testBit b = true) :
    b % (n + 1) = n + 1 - 1 := by
  have hpow : 2 ^ n < 2 ^ (n + 1) := Nat.pow_lt_pow_right (by decide) (Nat.lt_succ_self n)
  have hb : 2 ^ n < 2 ^ ((n + 1) * k) :=
    lt_of_lt_of_le hpow (Nat.pow_le_pow_right (by decide) (Nat.le_mul_of_pos_right _ hk))
  rw [Nat.testBit_and, testBit_makeBitmask (Nat.succ_pos n) hpow hb, Nat.testBit_two_pow] at h
  simp only [Bool.and_eq_true, decide_eq_true_eq] at h
  rw [Nat.add_sub_cancel]
  exact h.2.2.symm

/-- The lanes of `greaterEqual_MSB_off(left, right)` when no lane of `right` exceeds
`2 ^ n`: the guard bit keeps the subtraction inside each lane. -/
theorem lane_greaterEqual_MSB_off {n k left right i : Nat} (hl : left < 2 ^ ((n + 1) * k))
    (hr : right < 2 ^ ((n + 1) * k)) (hrm : ∀ j, j < k → lane (n + 1) right j ≤ 2 ^ n)
    (hi : i < k) :
    lane (n + 1) (greaterEqual_MSB_off (n + 1) ((n + 1) * k) left right) i
      = ((lane (n + 1) left i ||| 2 ^ n) - lane (n + 1) right i) &&& 2 ^ n := by
  have hk : 0 < k := by omega
  have hN : 0 < n + 1 := Nat.succ_pos n
  have hpow : 2 ^ n < 2 ^ (n + 1) := Nat.pow_lt_pow_right (by decide) (Nat.lt_succ_self n)
  have hmb : 2 ^ n < 2 ^ ((n + 1) * k) :=
    lt_of_lt_of_le hpow (Nat.pow_le_pow_right (by decide) (Nat.le_mul_of_pos_right _ hk))
  unfold greaterEqual_MSB_off
  simp only [MSBs_eq_makeBitmask hk]
  have hmask := makeBitmask_lt hN hpow hmb
  have hadj : left ||| makeBitmask (n + 1) ((n + 1) * k) (2 ^ n) < 2 ^ ((n + 1) * k) :=
    Nat.or_lt_two_pow hl hmask
  have hlanes : ∀ j, j < k →
      lane (n + 1) right j
        ≤ lane (n + 1) (left ||| makeBitmask (n + 1) ((n + 1) * k) (2 ^ n)) j := by
    intro j hj
    rw [lane_or, lane_makeBitmask hN hpow hk hj]
    exact le_trans (hrm j hj) (or_msb_ge n _)
  rw [lane_and, wsub_lanes hadj hr hlanes, lane_makeBitmask hN hpow hk hi,
    lane_pack _ _ _ _ _ hi]
  · rw [lane_or, lane_makeBitmask hN hpow hk hi]
  · intro j hj
    rw [lane_or, lane_makeBitmask hN hpow hk hj]
    exact lt_of_le_of_lt (Nat.sub_le _ _) (or_msb_lt (lane_lt _ _ _))

/-- C16: for every lane width `NBits > 1` dividing the width of `T` and all packed words
`left`, `right` in which every lane is below `2 ^ (NBits - 1)`, for every lane `i` the
most-significant bit of lane `i` of `greaterEqual_MSB_off(left, right)` is set iff
`left.at(i) >= right.at(i)`, and no other bit of the result is set. -/
theorem greaterEqual_MSB_off_compares_lanes (NBits bits left right : Nat) (hN : 1 < NBits)
    (hbits : 0 < bits) (hd : NBits ∣ bits) (hl : left < 2 ^ bits) (hr : right < 2 ^ bits)
    (hlm : ∀ j, j < bits / NBits → SWAR.at NBits bits left j < 2 ^ (NBits - 1))
    (hrm : ∀ j, j < bits / NBits → SWAR.at NBits bits right j < 2 ^ (NBits - 1)) :
    (∀ i, i < bits / NBits →
      ((greaterEqual_MSB_off NBits bits left right).testBit (NBits * i + (NBits - 1)) = true
        ↔ SWAR.at NBits bits right i ≤ SWAR.at NBits bits left i)) ∧
      ∀ b, (greaterEqual_MSB_off NBits bits left right).testBit b = true →
        b % NBits = NBits - 1 := by
  obtain ⟨n, rfl⟩ : ∃ n, NBits = n + 1 := ⟨NBits - 1, by omega⟩
  obtain ⟨k, rfl⟩ := hd
  have hkpos : 0 < k := Nat.pos_of_mul_pos_left hbits
  have hk : (n + 1) * k / (n + 1) = k := Nat.mul_div_cancel_left k (Nat.succ_pos n)
  have hle : n + 1 ≤ (n + 1) * k := Nat.le_mul_of_pos_right _ hkpos
  rw [hk] at hlm hrm ⊢
  simp only [at_eq_lane hle, Nat.add_sub_cancel] at hlm hrm ⊢
  constructor
  · intro i hi
    have hli := hlm i hi
    have hri := hrm i hi
    rw [testBit_lane_msb,
      lane_greaterEqual_MSB_off hl hr (fun j hj => le_of_lt (hrm j hj)) hi,
      Nat.testBit_and, Nat.testBit_two_pow_self, Bool.and_true, or_msb_of_lt hli]
    have hpow : 2 ^ (n + 1) = 2 * 2 ^ n := by rw [Nat.pow_succ]; omega
    have hdlt : lane (n + 1) left i + 2 ^ n - lane (n + 1) right i < 2 ^ (n + 1) := by omega
    rw [testBit_top_of_lt hdlt]
    omega
  · intro b hb
    unfold greaterEqual_MSB_off at hb
    simp only [MSBs_eq_makeBitmask hkpos] at hb
    have := msb_of_testBit_and_mask hkpos hb
    simpa using this

/-- C16, for `uint32_t` with 8 bit lanes, `left = 0x7F001234` and
`right = 0x7E011233`: lanes 0 and 3 compare true, and the result is `0x80008080`. -/
theorem greaterEqual_MSB_off_compares_lanes_witness :
    greaterEqual_MSB_off 8 32 0x7F001234 0x7E011233 = 0x80008080 ∧
      (∀ i, i < 32 / 8 →
        ((greaterEqual_MSB_off 8 32 0x7F001234 0x7E011233).testBit (8 * i + (8 - 1)) = true
          ↔ SWAR.at 8 32 0x7E011233 i ≤ SWAR.at 8 32 0x7F001234 i)) ∧
      ∀ b, (greaterEqual_MSB_off 8 32 0x7F001234 0x7E011233).testBit b = true →
        b % 8 = 8 - 1 :=
  ⟨by decide, greaterEqual_MSB_off_compares_lanes 8 32 0x7F001234 0x7E011233 (by decide)
    (by decide) (by decide) (by decide) (by decide) (by decide) (by decide)⟩

/-! ## `greaterEqual`: lane independence and the result word -/

/-- C19 (as stated, refuted): with 8 bit lanes in a 64 bit word and `K = 200`, the
words `0xC800` and `0xC8FF` agree on lane 1, and the truth bit of lane 1 is set for
the first and clear for the second: lane 0 of the first borrows from lane 1. -/
theorem greaterEqual_borrow_crosses_lanes :
    SWAR.at 8 64 0xC800 1 = SWAR.at 8 64 0xC8FF 1 ∧
      (greaterEqual 200 8 64 0xC800).testBit (8 * 1 + (8 - 1)) = true ∧
      (greaterEqual 200 8 64 0xC8FF).testBit (8 * 1 + (8 - 1)) = false := by
  decide

/-- C19 (as amended): for every lane width `NBits > 1` dividing the width of `T`, every
constant `K` with `K <= 2 ^ (NBits - 1)`, every lane index `i` and every two packed
words `W`, `W1` with `W.at(i) == W1.at(i)`, the truth bit of lane `i` of
`greaterEqual<K>(W)` equals that of `greaterEqual<K>(W1)`. -/
theorem greaterEqual_lane_depends_on_own_lane (K NBits bits W W1 i : Nat) (hN : 1 < NBits)
    (hd : NBits ∣ bits) (hW : W < 2 ^ bits) (hW1 : W1 < 2 ^ bits)
    (hK : K ≤ 2 ^ (NBits - 1)) (hi : i < bits / NBits)
    (heq : SWAR.at NBits bits W i = SWAR.at NBits bits W1 i) :
    (greaterEqual K NBits bits W).testBit (NBits * i + (NBits - 1))
      = (greaterEqual K NBits bits W1).testBit (NBits * i + (NBits - 1)) := by
  obtain ⟨n, rfl⟩ : ∃ n, NBits = n + 1 := ⟨NBits - 1, by omega⟩
  obtain ⟨k, rfl⟩ := hd
  have hk : (n + 1) * k / (n + 1) = k := Nat.mul_div_cancel_left k (Nat.succ_pos n)
  rw [hk] at hi
  have hle : n + 1 ≤ (n + 1) * k := Nat.le_mul_of_pos_right _ (by omega)
  rw [Nat.add_sub_cancel] at hK ⊢
  rw [at_eq_lane hle, at_eq_lane hle] at heq
  rw [testBit_lane_msb, testBit_lane_msb, lane_greaterEqual hK hW hi,
    lane_greaterEqual hK hW1 hi, heq]

/-- C19 (as amended), with 8 bit lanes, `K = 100` and the words `0x6E00`, `0x6EFF`,
which agree on lane 1. -/
theorem greaterEqual_lane_depends_on_own_lane_witness :
    (greaterEqual 100 8 64 0x6E00).testBit (8 * 1 + (8 - 1))
      = (greaterEqual 100 8 64 0x6EFF).testBit (8 * 1 + (8 - 1)) :=
  greaterEqual_lane_depends_on_own_lane 100 8 64 0x6E00 0x6EFF 1 (by decide) (by decide)
    (by decide) (by decide) (by decide) (by decide) (by decide)

/-- The truth bit of a lane whose most-significant bit is clear, for `K <= 2 ^ n`. -/
theorem testBit_greaterEqual_msb {K n k v i : Nat} (hK : K ≤ 2 ^ n)
    (hv : v < 2 ^ ((n + 1) * k)) (hi : i < k) (hlane : lane (n + 1) v i < 2 ^ n) :
    (greaterEqual K (n + 1) ((n + 1) * k) v).testBit ((n + 1) * i + n) = true
      ↔ K ≤ lane (n + 1) v i := by
  rw [testBit_lane_msb, lane_greaterEqual hK hv hi, Nat.testBit_and, Nat.testBit_two_pow_self,
    Bool.and_true, or_msb_of_lt hlane]
  have hpow : 2 ^ (n + 1) = 2 * 2 ^ n := by rw [Nat.pow_succ]; omega
  have hd : lane (n + 1) v i + 2 ^ n - K < 2 ^ (n + 1) := by omega
  rw [testBit_top_of_lt hd]
  omega

/-- C20: for every lane width `NBits > 1` dividing the width of `T`, every constant `K`
with `K <= 2 ^ (NBits - 1)` and every packed word `v` in which every lane is below
`2 ^ (NBits - 1)`, for every lane `i` the most-significant bit of lane `i` of
`greaterEqual<K>(v)` is set iff `v.at(i) >= K`, and no other bit of the result is set. -/
theorem greaterEqual_of_msb_off_word (K NBits bits v : Nat) (hN : 1 < NBits)
    (hbits : 0 < bits) (hd : NBits ∣ bits) (hv : v < 2 ^ bits) (hK : K ≤ 2 ^ (NBits - 1))
    (hlanes : ∀ j, j < bits / NBits → SWAR.at NBits bits v j < 2 ^ (NBits - 1)) :
    (∀ i, i < bits / NBits →
      ((greaterEqual K NBits bits v).testBit (NBits * i + (NBits - 1)) = true
        ↔ K ≤ SWAR.at NBits bits v i)) ∧
      ∀ b, (greaterEqual K NBits bits v).testBit b = true → b % NBits = NBits - 1 := by
  obtain ⟨n, rfl⟩ : ∃ n, NBits = n + 1 := ⟨NBits - 1, by omega⟩
  obtain ⟨k, rfl⟩ := hd
  have hkpos : 0 < k := Nat.pos_of_mul_pos_left hbits
  have hk : (n + 1) * k / (n + 1) = k := Nat.mul_div_cancel_left k (Nat.succ_pos n)
  have hle : n + 1 ≤ (n + 1) * k := Nat.le_mul_of_pos_right _ hkpos
  rw [hk] at hlanes ⊢
  simp only [at_eq_lane hle, Nat.add_sub_cancel] at hlanes hK ⊢
  constructor
  · intro i hi
    exact testBit_greaterEqual_msb hK hv hi (hlanes i hi)
  · intro b hb
    have hs : shl ((n + 1) * k) 1 n = 2 ^ n := shl_one_of_lt (by omega)
    unfold greaterEqual at hb
    simp only [Nat.add_sub_cancel, hs] at hb
    have := msb_of_testBit_and_mask hkpos hb
    simpa using this

/-- C20, for `uint32_t` with 8 bit lanes, `K = 100` and the bytes `[3,110,127,100]`:
lanes 1, 2 and 3 are true and the result is `0x80808000`. -/
theorem greaterEqual_of_msb_off_word_witness :
    greaterEqual 100 8 32 0x647F6E03 = 0x80808000 ∧
      (∀ i, i < 32 / 8 →
        ((greaterEqual 100 8 32 0x647F6E03).testBit (8 * i + (8 - 1)) = true
          ↔ 100 ≤ SWAR.at 8 32 0x647F6E03 i)) ∧
      ∀ b, (greaterEqual 100 8 32 0x647F6E03).testBit b = true → b % 8 = 8 - 1 :=
  ⟨by decide, greaterEqual_of_msb_off_word 100 8 32 0x647F6E03 (by decide) (by decide)
    (by decide) (by decide) (by decide) (by decide)⟩

/-! ## `meta::BitmaskMaker` and `meta::BitmaskMakerClearTop` -/

/-- The doubling recursion, started on a word that repeats the pattern `c` of width `P`
below `s` (a multiple of `P`) and is zero above, ends with the pattern repeated over
the whole width; `bits - s + 1` units of fuel are enough. -/
theorem testBit_BitmaskMaker_impl (bits P c : Nat) :
    ∀ (fuel s Current : Nat) (flag : Bool), 0 < s → P ∣ s →
      (flag = true → s < bits ∧ bits - s + 1 ≤ fuel) →
      (flag = false → bits ≤ s ∧ 1 ≤ fuel) →
      (∀ i, Current.testBit i = (decide (i < bits) && decide (i < s) && c.testBit (i % P))) →
      ∃ v, meta.detail.BitmaskMaker_impl bits fuel Current s flag = some v ∧
        ∀ i, v.testBit i = (decide (i < bits) && c.testBit (i % P))
  | 0, s, Current, flag, _, _, ht, hf, _ => by
    cases flag
    · have := (hf rfl).2
      omega
    · have := (ht rfl).2
      omega
  | fuel + 1, s, Current, false, _, _, _, hf, hcur => by
    refine ⟨Current, rfl, ?_⟩
    intro i
    rw [hcur i]
    have hbs := (hf rfl).1
    by_cases hb : i < bits
    · have : i < s := by omega
      simp [hb, this]
    · simp [hb]
  | fuel + 1, s, Current, true, hs, hP, ht, _, hcur => by
    obtain ⟨hsb, hfuel⟩ := ht rfl
    rw [meta.detail.BitmaskMaker_impl]
    apply testBit_BitmaskMaker_impl bits P c fuel (s * 2) _ _ (by omega)
      (Dvd.dvd.mul_right hP 2)
    · intro h
      have : s * 2 < bits := of_decide_eq_true h
      omega
    · intro h
      have : ¬ (s * 2 < bits) := of_decide_eq_false h
      omega
    · intro i
      rw [testBit_repeat_step, hcur i, hcur (i - s)]
      rcases Nat.lt_or_ge i s with hlt | hge
      · have h1 : ¬ (s ≤ i) := by omega
        have h2 : i < s * 2 := by omega
        simp [hlt, h1, h2]
      · have hm : (i - s) % P = i % P := by
          obtain ⟨q, hq⟩ := hP
          have e : i = (i - s) + P * q := by omega
          conv_rhs => rw [e, Nat.add_mul_mod_self_left]
        have h1 : ¬ (i < s) := by omega
        rw [hm]
        by_cases hb : i < bits
        · have h2 : i - s < bits := by omega
          by_cases h3 : i < s * 2
          · have h4 : i - s < s := by omega
            simp [hb, h1, hge, h2, h3, h4]
          · have h4 : ¬ (i - s < s) := by omega
            simp [hb, h1, hge, h2, h3, h4]
        · simp [hb]

/-- The doubling generator and the generator of SWAR.h build the same word. -/
theorem meta_BitmaskMaker_eq_makeBitmask {bits c P : Nat} (hP : 0 < P) (h2 : P * 2 ≤ bits)
    (hc : c < 2 ^ P) : meta.BitmaskMaker bits c P = some (makeBitmask P bits c) := by
  have hcb : c < 2 ^ bits :=
    lt_of_lt_of_le hc (Nat.pow_le_pow_right (by decide) (by omega))
  have hcur : ∀ i, c.testBit i
      = (decide (i < bits) && decide (i < P) && c.testBit (i % P)) := by
    intro i
    rcases Nat.lt_or_ge i P with hlt | hge
    · have hb : i < bits := by omega
      simp [hlt, hb, Nat.mod_eq_of_lt hlt]
    · have : c.testBit i = false :=
        Nat.testBit_lt_two_pow (lt_of_lt_of_le hc (Nat.pow_le_pow_right (by decide) hge))
      have h1 : ¬ (i < P) := by omega
      simp [this, h1]
  obtain ⟨v, hv, hbit⟩ := testBit_BitmaskMaker_impl bits P c (bits + 1) P c
    (decide (P * 2 ≤ bits)) hP (dvd_refl P)
    (fun _ => ⟨by omega, by omega⟩)
    (fun h => absurd h2 (of_decide_eq_false h)) hcur
  unfold meta.BitmaskMaker
  rw [hv]
  congr 1
  apply Nat.eq_of_testBit_eq
  intro i
  rw [hbit i, testBit_makeBitmask hP hc hcb]

/-- C12: for every width of `T`, every pattern width `P >= 1` with `2 * P` at most that
width (`P` need not divide it) and every pattern `c < 2 ^ P`, the constant
`meta::BitmaskMaker<T, c, P>::value` is periodic with period `P` over the whole width:
bit `i` of the value is bit `i % P` of `c` for every `i` below the width, so its low
`P` bits are `c`. -/
theorem meta_BitmaskMaker_periodic (bits c P : Nat) (hP : 1 ≤ P) (h2 : 2 * P ≤ bits)
    (hc : c < 2 ^ P) :
    ∃ v, meta.BitmaskMaker bits c P = some v ∧ v < 2 ^ bits ∧
      (∀ i, i < bits → v.testBit i = c.testBit (i % P)) ∧ v % 2 ^ P = c := by
  have hcb : c < 2 ^ bits :=
    lt_of_lt_of_le hc (Nat.pow_le_pow_right (by decide) (by omega))
  have hbit := testBit_makeBitmask hP hc hcb
  refine ⟨makeBitmask P bits c, meta_BitmaskMaker_eq_makeBitmask hP (by omega) hc,
    makeBitmask_lt hP hc hcb, ?_, ?_⟩
  · intro i hi
    rw [hbit i]
    simp [hi]
  · apply Nat.eq_of_testBit_eq
    intro i
    rw [Nat.testBit_mod_two_pow, hbit i]
    rcases Nat.lt_or_ge i P with hlt | hge
    · have hb : i < bits := by omega
      simp [hlt, hb, Nat.mod_eq_of_lt hlt]
    · have : c.testBit i = false :=
        Nat.testBit_lt_two_pow (lt_of_lt_of_le hc (Nat.pow_le_pow_right (by decide) hge))
      have h1 : ¬ (i < P) := by omega
      simp [this, h1]

/-- C12, at `(uint32_t, 0xFED, 12)`, with the three values the header asserts. -/
theorem meta_BitmaskMaker_periodic_witness :
    meta.BitmaskMaker 8 0x7 3 = some 0xFF ∧
      meta.BitmaskMaker 16 0xF0 8 = some 0xF0F0 ∧
      meta.BitmaskMaker 32 0xFED 12 = some 0xEDFEDFED ∧
      ∃ v, meta.BitmaskMaker 32 0xFED 12 = some v ∧ v < 2 ^ 32 ∧
        (∀ i, i < 32 → v.testBit i = (0xFED : Nat).testBit (i % 12)) ∧ v % 2 ^ 12 = 0xFED :=
  ⟨by decide, by decide, by decide,
    meta_BitmaskMaker_periodic 32 0xFED 12 (by decide) (by decide) (by decide)⟩

/-- C17 (the code at the failing input): `BitmaskMakerClearTop<uint32_t, 12>::TopBlit`
is `0x00FFFFFF`, with its top 8 bits clear; bits 24 and 25, which the "6 bit top clear"
of the doc comment keeps, are clear. -/
theorem TopBlit_does_not_keep_26_bits :
    meta.BitmaskMakerClearTop.TopBlit 32 12 = 0x00FFFFFF ∧
      ¬ ((∀ i, i < 26 → (meta.BitmaskMakerClearTop.TopBlit 32 12).testBit i = true) ∧
        ∀ i, 26 ≤ i → i < 32 → (meta.BitmaskMakerClearTop.TopBlit 32 12).testBit i = false) := by
  decide

/-- C18: for every width of `T`, every lane width `NBits` dividing and smaller than it
and every pattern `v < 2 ^ NBits`, `makeBitmask<NBits, T>(v)` is the word
`meta::BitmaskMaker<T, v, NBits>::value` of the doubling generator. -/
theorem makeBitmask_agrees_with_meta_BitmaskMaker (NBits bits v : Nat) (hd : NBits ∣ bits)
    (hlt : NBits < bits) (hv : v < 2 ^ NBits) :
    meta.BitmaskMaker bits v NBits = some (makeBitmask NBits bits v) := by
  have hN : 0 < NBits := by
    rcases Nat.eq_zero_or_pos NBits with h | h
    · rw [h] at hd
      have := Nat.eq_zero_of_zero_dvd hd
      omega
    · exact h
  obtain ⟨k, rfl⟩ := hd
  have hk : 2 ≤ k := by
    rcases Nat.lt_or_ge k 2 with h | h
    · interval_cases k <;> omega
    · exact h
  have h2 : NBits * 2 ≤ NBits * k := Nat.mul_le_mul_left _ hk
  exact meta_BitmaskMaker_eq_makeBitmask hN h2 hv

/-- C18, at `(uint16_t, 4 bit lanes, 0xA)`: both generators give `0xAAAA`. -/
theorem makeBitmask_agrees_with_meta_BitmaskMaker_witness :
    makeBitmask 4 16 0xA = 0xAAAA ∧ meta.BitmaskMaker 16 0xA 4 = some (makeBitmask 4 16 0xA) :=
  ⟨by decide, makeBitmask_agrees_with_meta_BitmaskMaker 4 16 0xA (by decide) (by decide)
    (by decide)⟩

/-! ## `clearLSB`, `isolateLSB` and their `NBits`-wide variants -/

/-- Every nonzero number is `2 ^ k` plus a multiple of `2 ^ (k + 1)`. -/
theorem exists_lowest_bit {v : Nat} (hne : v ≠ 0) : ∃ k q, v = 2 ^ (k + 1) * q + 2 ^ k := by
  obtain ⟨k, m, hm, hv⟩ := Nat.exists_eq_two_pow_mul_odd hne
  obtain ⟨q, rfl⟩ := hm
  refine ⟨k, q, ?_⟩
  rw [hv, Nat.pow_succ]
  ring

theorem testBit_lowest (k q j : Nat) :
    (2 ^ (k + 1) * q + 2 ^ k).testBit j
      = if j < k + 1 then decide (k = j) else q.testBit (j - (k + 1)) := by
  have hlt : 2 ^ k < 2 ^ (k + 1) := Nat.pow_lt_pow_right (by decide) (Nat.lt_succ_self k)
  rw [Nat.testBit_mul_pow_two_add q hlt j, Nat.testBit_two_pow]

theorem testBit_lowest_pred (k q j : Nat) :
    (2 ^ (k + 1) * q + 2 ^ k - 1).testBit j
      = if j < k + 1 then decide (j < k) else q.testBit (j - (k + 1)) := by
  have hpos : 0 < 2 ^ k := Nat.two_pow_pos k
  have hlt : 2 ^ k - 1 < 2 ^ (k + 1) :=
    lt_of_le_of_lt (Nat.sub_le _ _) (Nat.pow_lt_pow_right (by decide) (Nat.lt_succ_self k))
  have e : 2 ^ (k + 1) * q + 2 ^ k - 1 = 2 ^ (k + 1) * q + (2 ^ k - 1) := by omega
  rw [e, Nat.testBit_mul_pow_two_add q hlt j, Nat.testBit_two_pow_sub_one]

theorem lowest_bit_lt {bits k q : Nat} (hv : 2 ^ (k + 1) * q + 2 ^ k < 2 ^ bits) : k < bits := by
  by_contra h
  have h1 : 2 ^ bits ≤ 2 ^ k := Nat.pow_le_pow_right (by decide) (by omega)
  omega

theorem clearLSB_eq {bits k q : Nat} (hv : 2 ^ (k + 1) * q + 2 ^ k < 2 ^ bits) :
    clearLSB bits (2 ^ (k + 1) * q + 2 ^ k) = 2 ^ (k + 1) * q := by
  have hpos : 0 < 2 ^ k := Nat.two_pow_pos k
  unfold clearLSB
  rw [wsub_of_le hv (by omega)]
  apply Nat.eq_of_testBit_eq
  intro j
  rw [Nat.testBit_and, testBit_lowest, testBit_lowest_pred, Nat.testBit_mul_pow_two]
  by_cases h : j < k + 1
  · have h1 : ¬ (j ≥ k + 1) := by omega
    by_cases h2 : k = j
    · have h3 : ¬ (j < k) := by omega
      simp [h, h1, h2, h3]
    · simp [h, h1, h2]
  · have h1 : j ≥ k + 1 := by omega
    simp [h, h1]

theorem isolateLSB_eq {bits k q : Nat} (hv : 2 ^ (k + 1) * q + 2 ^ k < 2 ^ bits) :
    isolateLSB bits (2 ^ (k + 1) * q + 2 ^ k) = 2 ^ k := by
  have hk := lowest_bit_lt hv
  have hc : 2 ^ (k + 1) * q < 2 ^ bits := lt_of_le_of_lt (Nat.le_add_right _ _) hv
  unfold isolateLSB
  rw [clearLSB_eq hv]
  apply Nat.eq_of_testBit_eq
  intro j
  rw [Nat.testBit_and, testBit_wnot hc, testBit_lowest, Nat.testBit_mul_pow_two,
    Nat.testBit_two_pow]
  by_cases h : j < k + 1
  · have h1 : ¬ (j ≥ k + 1) := by omega
    by_cases h2 : k = j
    · have h3 : j < bits := by omega
      simp [h, h1, h2, h3]
    · simp [h, h1, h2]
  · have h1 : j ≥ k + 1 := by omega
    have h2 : ¬ (k = j) := by omega
    cases hq : q.testBit (j - (k + 1)) <;> simp [h, h1, h2, hq]

/-- C13: for every unsigned word `v`, `isolateLSB(0) == 0`, and for `v != 0`
`isolateLSB(v) == 2 ^ k` where `k` is the least index of a set bit of `v`. -/
theorem isolateLSB_keeps_lowest_set_bit (bits v : Nat) (hv : v < 2 ^ bits) :
    isolateLSB bits 0 = 0 ∧
      (v ≠ 0 → ∃ k, v.testBit k = true ∧ (∀ j, j < k → v.testBit j = false) ∧
        isolateLSB bits v = 2 ^ k) := by
  constructor
  · unfold isolateLSB
    exact Nat.zero_and _
  · intro hne
    obtain ⟨k, q, rfl⟩ := exists_lowest_bit hne
    refine ⟨k, ?_, ?_, isolateLSB_eq hv⟩
    · rw [testBit_lowest]
      simp
    · intro j hj
      rw [testBit_lowest]
      have h1 : j < k + 1 := by omega
      have h2 : ¬ (k = j) := by omega
      simp [h1, h2]

/-- C13, for `uint32_t` and the word `0x123400`, whose lowest set bit is bit 10. -/
theorem isolateLSB_keeps_lowest_set_bit_witness :
    isolateLSB 32 0x123400 = 2 ^ 10 ∧ isolateLSB 32 0 = 0 ∧
      ((0x123400 : Nat) ≠ 0 → ∃ k, (0x123400 : Nat).testBit k = true ∧
        (∀ j, j < k → (0x123400 : Nat).testBit j = false) ∧ isolateLSB 32 0x123400 = 2 ^ k) :=
  ⟨by decide, isolateLSB_keeps_lowest_set_bit 32 0x123400 (by decide)⟩

/-- C14: for every unsigned word `v`, `isolateLSB(v) | clearLSB(v) == v` and
`isolateLSB(v) & clearLSB(v) == 0`. -/
theorem isolateLSB_clearLSB_partition (bits v : Nat) (hv : v < 2 ^ bits) :
    (isolateLSB bits v ||| clearLSB bits v) = v ∧ (isolateLSB bits v &&& clearLSB bits v) = 0 := by
  have hc : clearLSB bits v < 2 ^ bits := lt_of_le_of_lt Nat.and_le_left hv
  have hcv : ∀ j, (clearLSB bits v).testBit j = true → v.testBit j = true := by
    intro j h
    unfold clearLSB at h
    rw [Nat.testBit_and, Bool.and_eq_true] at h
    exact h.1
  have hvb : ∀ j, v.testBit j = true → j < bits := by
    intro j h
    by_contra hb
    have : v.testBit j = false :=
      Nat.testBit_lt_two_pow (lt_of_lt_of_le hv (Nat.pow_le_pow_right (by decide) (by omega)))
    rw [this] at h
    exact Bool.noConfusion h
  unfold isolateLSB
  constructor
  · apply Nat.eq_of_testBit_eq
    intro j
    rw [Nat.testBit_or, Nat.testBit_and, testBit_wnot hc]
    have h1 := hcv j
    have h2 := hvb j
    cases hx : v.testBit j <;> cases hy : (clearLSB bits v).testBit j <;> simp_all
  · apply Nat.eq_of_testBit_eq
    intro j
    rw [Nat.testBit_and, Nat.testBit_and, testBit_wnot hc, Nat.zero_testBit]
    cases hy : (clearLSB bits v).testBit j <;> simp

/-- C14, for `uint16_t` and the word `0x1230`. -/
theorem isolateLSB_clearLSB_partition_witness :
    isolateLSB 16 0x1230 = 0x10 ∧ clearLSB 16 0x1230 = 0x1220 ∧
      (isolateLSB 16 0x1230 ||| clearLSB 16 0x1230) = 0x1230 ∧
      (isolateLSB 16 0x1230 &&& clearLSB 16 0x1230) = 0 :=
  ⟨by decide, by decide, isolateLSB_clearLSB_partition 16 0x1230 (by decide)⟩

theorem maskLowBits_eq {NBits : Nat} (h1 : 1 ≤ NBits) (h64 : NBits ≤ 64) :
    maskLowBits NBits 64 = 2 ^ NBits - 1 := by
  obtain ⟨n, rfl⟩ : ∃ n, NBits = n + 1 := ⟨NBits - 1, by omega⟩
  have hpos : 0 < 2 ^ n := Nat.two_pow_pos n
  have hlt : 2 ^ n < 2 ^ 64 := Nat.pow_lt_pow_right (by decide) (by omega)
  unfold maskLowBits
  rw [Nat.add_sub_cancel, shl_one_of_lt (by omega), wsub_of_le hlt hpos, Nat.or_comm,
    or_msb_of_lt (by omega), Nat.pow_succ]
  omega

theorem testBit_window {NBits k : Nat} (j : Nat) :
    (shl 64 (2 ^ NBits - 1) k).testBit j
      = (decide (j < 64) && (decide (k ≤ j) && decide (j - k < NBits))) := by
  unfold shl
  rw [Nat.testBit_mod_two_pow, Nat.testBit_shiftLeft, Nat.testBit_two_pow_sub_one]

theorem metaLogFloor_isolateLSB_0x180 : metaLogFloor (isolateLSB 64 0x180) = 7 := by
  have h : isolateLSB 64 0x180 = 2 ^ 7 := by decide
  rw [h]
  exact Nat.log2_two_pow

theorem isolateLSBits_0x180 : isolateLSBits 8 64 0x180 = 0x180 := by
  unfold isolateLSBits
  rw [metaLogFloor_isolateLSB_0x180]
  decide

theorem clearLSBits_0x180 : clearLSBits 8 64 0x180 = 0 := by
  unfold clearLSBits
  rw [metaLogFloor_isolateLSB_0x180]
  decide

/-- C15 (as stated, refuted): with `N = 8` and `v = 0x180` the lowest set bit is bit 7,
in lane 0; `v` with every bit outside lane 0 cleared is `0x80` and `v` with lane 0
cleared is `0x100`, while `isolateLSBits<8>(v)` is `0x180` and `clearLSBits<8>(v)`
is `0`: the mask starts at bit 7 and reaches bit 14. -/
theorem isolateLSBits_window_is_not_lane_aligned :
    (0x180 : Nat).testBit 7 = true ∧ (∀ j, j < 7 → (0x180 : Nat).testBit j = false) ∧
      isolateLSBits 8 64 0x180 = 0x180 ∧
      isolateLSBits 8 64 0x180 ≠ 0x180 &&& shl 64 (2 ^ 8 - 1) (8 * (7 / 8)) ∧
      clearLSBits 8 64 0x180 = 0 ∧
      clearLSBits 8 64 0x180 ≠ 0x180 &&& wnot 64 (shl 64 (2 ^ 8 - 1) (8 * (7 / 8))) := by
  rw [isolateLSBits_0x180, clearLSBits_0x180]
  decide

/-- C15 (as amended): for every width `NBits` from 1 to 64 and every 64 bit `v != 0`,
with `k` the index of the lowest set bit of `v`: `isolateLSBits<NBits>(v)` is `v`
with every bit outside the window `k .. k + NBits - 1` cleared, and
`clearLSBits<NBits>(v)` is `v` with every bit of that window cleared. -/
theorem isolateLSBits_clearLSBits_window (NBits v : Nat) (h1 : 1 ≤ NBits) (h64 : NBits ≤ 64)
    (hv : v < 2 ^ 64) (hne : v ≠ 0) :
    ∃ k, v.testBit k = true ∧ (∀ j, j < k → v.testBit j = false) ∧
      (∀ j, (isolateLSBits NBits 64 v).testBit j
        = (v.testBit j && decide (k ≤ j ∧ j < k + NBits))) ∧
      ∀ j, (clearLSBits NBits 64 v).testBit j
        = (v.testBit j && !decide (k ≤ j ∧ j < k + NBits)) := by
  obtain ⟨k, q, rfl⟩ := exists_lowest_bit hne
  have hvb : ∀ j, (2 ^ (k + 1) * q + 2 ^ k).testBit j = true → j < 64 := by
    intro j h
    by_contra hb
    have : (2 ^ (k + 1) * q + 2 ^ k).testBit j = false :=
      Nat.testBit_lt_two_pow (lt_of_lt_of_le hv (Nat.pow_le_pow_right (by decide) (by omega)))
    rw [this] at h
    exact Bool.noConfusion h
  have hlog : metaLogFloor (isolateLSB 64 (2 ^ (k + 1) * q + 2 ^ k)) = k := by
    rw [isolateLSB_eq hv]
    exact Nat.log2_two_pow
  have hwin : ∀ j, decide (k ≤ j ∧ j < k + NBits) = (decide (k ≤ j) && decide (j - k < NBits)) := by
    intro j
    by_cases a : k ≤ j
    · by_cases b : j - k < NBits
      · have : j < k + NBits := by omega
        simp [a, b, this]
      · have : ¬ (j < k + NBits) := by omega
        simp [a, b, this]
    · simp [a]
  refine ⟨k, ?_, ?_, ?_, ?_⟩
  · rw [testBit_lowest]
    simp
  · intro j hj
    rw [testBit_lowest]
    have h1 : j < k + 1 := by omega
    have h2 : ¬ (k = j) := by omega
    simp [h1, h2]
  · intro j
    unfold isolateLSBits
    rw [hlog, maskLowBits_eq h1 h64, Nat.testBit_and, testBit_window, hwin]
    have h := hvb j
    cases hx : (2 ^ (k + 1) * q + 2 ^ k).testBit j
    · simp
    · have : j < 64 := h hx
      simp [this]
  · intro j
    unfold clearLSBits
    have hx : shl 64 (2 ^ NBits - 1) k < 2 ^ 64 := Nat.mod_lt _ (Nat.two_pow_pos _)
    rw [hlog, maskLowBits_eq h1 h64, Nat.testBit_and, testBit_wnot hx, testBit_window, hwin]
    have h := hvb j
    cases hx : (2 ^ (k + 1) * q + 2 ^ k).testBit j
    · simp
    · have : j < 64 := h hx
      simp [this]

/-- C15 (as amended), with `NBits = 8` and `v = 0x180`: the lowest set bit is kept by
`isolateLSBits` and cleared by `clearLSBits`. -/
theorem isolateLSBits_clearLSBits_window_witness :
    isolateLSBits 8 64 0x180 = 0x180 ∧ clearLSBits 8 64 0x180 = 0 ∧
      ∃ k, (0x180 : Nat).testBit k = true ∧ (∀ j, j < k → (0x180 : Nat).testBit j = false) ∧
        (∀ j, (isolateLSBits 8 64 0x180).testBit j
          = ((0x180 : Nat).testBit j && decide (k ≤ j ∧ j < k + 8))) ∧
        ∀ j, (clearLSBits 8 64 0x180).testBit j
          = ((0x180 : Nat).testBit j && !decide (k ≤ j ∧ j < k + 8)) :=
  ⟨isolateLSBits_0x180, clearLSBits_0x180,
    isolateLSBits_clearLSBits_window 8 0x180 (by decide) (by decide) (by decide) (by decide)⟩

end zoo.swar
